import Mathlib

/-!
Verification of the clickhouse.rs client library wire-level data path.

The repository source available under `src/` contains only `lib.rs` (the
`Client` configuration builder and `Client::request` scheme dispatch).  The
modules it declares (`rowbinary`, `buflist`, `cursor`, `compression`,
`insert`, `inserter`, `error`) are part of this repository but their code is
not present, so the corresponding components are modelled from the
specification document, faithful to its words; every such definition carries
a doc comment starting with `Modelled from the spec:`.
-/

/-- Modelled from the spec: the fixed integer widths of RowBinary
("fixed-width integer (signed/unsigned, 8/16/32/64/128-bit)"); the source
module `rowbinary` is missing from `src/`. -/
inductive IntWidth
  | w8
  | w16
  | w32
  | w64
  | w128
deriving Repr, DecidableEq

/-- Byte count of an integer width. -/
def IntWidth.bytes : IntWidth → Nat
  | .w8 => 1
  | .w16 => 2
  | .w32 => 4
  | .w64 => 8
  | .w128 => 16

/-- Modelled from the spec: the supported column types of the Row Codec
(spec section 3, "Column Value"); the source module `rowbinary` is missing
from `src/`.  `fixedStringT n` denotes `FixedString(n+1)`, since a
fixed-length byte column of width zero is not a valid column type.
LowCardinality values are integer-coded and encode as their base type, so
they need no separate constructor. -/
inductive CType
  | uintT (w : IntWidth)
  | intT (w : IntWidth)
  | float32T
  | float64T
  | boolT
  | stringT
  | fixedStringT (n : Nat)
  | nullableT (t : CType)
  | arrayT (t : CType)
deriving Repr, DecidableEq

/-- Modelled from the spec: in-memory column values handled by the Row Codec;
the source module `rowbinary` is missing from `src/`.  Floating-point values
are carried as their IEEE bit patterns, since the codec reads and writes the
raw little-endian bytes of a float without interpreting them.  Strings are
byte lists. -/
inductive CValue
  | uintV (n : Nat)
  | intV (i : Int)
  | floatV (bits : Nat)
  | boolV (b : Bool)
  | stringV (bs : List Nat)
  | fixedStringV (bs : List Nat)
  | nullV
  | someV (v : CValue)
  | arrayV (vs : List CValue)
deriving Repr

/-- Modelled from the spec: a value is row-compatible with a column type when
its shape and ranges match the type (spec section 3 invariants). -/
def hasType : CValue → CType → Bool
  | .uintV n, .uintT w => decide (n < 2 ^ (8 * w.bytes))
  | .intV i, .intT w =>
    decide (-((2 : Int) ^ (8 * w.bytes - 1)) ≤ i ∧ i < (2 : Int) ^ (8 * w.bytes - 1))
  | .floatV bits, .float32T => decide (bits < 2 ^ 32)
  | .floatV bits, .float64T => decide (bits < 2 ^ 64)
  | .boolV _, .boolT => true
  | .stringV bs, .stringT => bs.all (fun b => decide (b < 256))
  | .fixedStringV bs, .fixedStringT n =>
    decide (bs.length = n + 1) && bs.all (fun b => decide (b < 256))
  | .nullV, .nullableT _ => true
  | .someV v, .nullableT t => hasType v t
  | .arrayV vs, .arrayT t => vs.all (fun v => hasType v t)
  | _, _ => false

/-- Little-endian encoding of `n` on `w` bytes (RowBinary fixed-width layout). -/
def encLE : Nat → Nat → List Nat
  | 0, _ => []
  | w + 1, n => n % 256 :: encLE w (n / 256)

/-- Fuel-driven LEB128 worker; the fuel argument only bounds recursion depth. -/
def ulebAux : Nat → Nat → List Nat
  | 0, n => [n % 128]
  | fuel + 1, n => if n < 128 then [n] else (n % 128 + 128) :: ulebAux fuel (n / 128)

/-- Modelled from the spec: the variable-length unsigned integer length
prefix used by RowBinary for strings and arrays (LEB128); the source module
`rowbinary` is missing from `src/`. -/
def uleb (n : Nat) : List Nat :=
  ulebAux n n

/-- `ulebAux` ignores its fuel once the fuel dominates the value. -/
theorem ulebAux_irrel (f1 : Nat) : ∀ f2 n, n ≤ f1 → n ≤ f2 → ulebAux f1 n = ulebAux f2 n := by
  induction f1 with
  | zero =>
    intro f2 n h1 h2
    have hn : n = 0 := by omega
    subst hn
    cases f2 <;> simp [ulebAux]
  | succ f1 ih =>
    intro f2 n h1 h2
    cases f2 with
    | zero =>
      have hn : n = 0 := by omega
      subst hn
      simp [ulebAux]
    | succ g =>
      by_cases hn : n < 128
      · simp [ulebAux, hn]
      · have hd1 : n / 128 ≤ f1 := by omega
        have hd2 : n / 128 ≤ g := by omega
        simp only [ulebAux, hn, if_false]
        rw [ih g (n / 128) hd1 hd2]

/-- Unfolding equation for `uleb`. -/
theorem uleb_eq (n : Nat) :
    uleb n = if n < 128 then [n] else (n % 128 + 128) :: uleb (n / 128) := by
  unfold uleb
  cases n with
  | zero => simp [ulebAux]
  | succ m =>
    by_cases hn : m + 1 < 128
    · simp [ulebAux, hn]
    · have hd : (m + 1) / 128 ≤ m := by omega
      simp only [ulebAux, hn, if_false]
      rw [ulebAux_irrel m ((m + 1) / 128) ((m + 1) / 128) hd (le_refl _)]

/-- Modelled from the spec: Row Codec encode of one column value, driven by
the column type ("writes each field in declared order using a fixed,
format-specific byte layout"); the source module `rowbinary` is missing from
`src/`.  Ill-typed combinations encode to no bytes; all theorems guard with
`hasType`. -/
def encodeValue : CType → CValue → List Nat
  | .uintT w, .uintV n => encLE w.bytes n
  | .intT w, .intV i => encLE w.bytes (i % ((2 : Int) ^ (8 * w.bytes))).toNat
  | .float32T, .floatV bits => encLE 4 bits
  | .float64T, .floatV bits => encLE 8 bits
  | .boolT, .boolV b => [if b then 1 else 0]
  | .stringT, .stringV bs => uleb bs.length ++ bs
  | .fixedStringT _, .fixedStringV bs => bs
  | .nullableT _, .nullV => [1]
  | .nullableT t, .someV v => 0 :: encodeValue t v
  | .arrayT t, .arrayV vs => uleb vs.length ++ (vs.map (encodeValue t)).flatten
  | _, _ => []

/-- Modelled from the spec: Row Codec encode of one whole row, writing each
field in declared column order. -/
def encodeRow : List CType → List CValue → List Nat
  | t :: ts, v :: vs => encodeValue t v ++ encodeRow ts vs
  | _, _ => []

/-- Modelled from the spec: the decode-side outcomes of the Row Codec —
`insufficientData` is the internal "buffer more" signal, `malformed` the
fatal impossible-byte-layout error (spec section 7). -/
inductive DecErr
  | insufficientData
  | malformed
deriving Repr, DecidableEq

/-- Little-endian decode of `w` bytes into a `Nat`, returning the tail. -/
def decLE : Nat → List Nat → Except DecErr (Nat × List Nat)
  | 0, input => .ok (0, input)
  | _ + 1, [] => .error .insufficientData
  | w + 1, b :: rest =>
    match decLE w rest with
    | .ok (n, r) => .ok (b + 256 * n, r)
    | .error e => .error e

/-- LEB128 decode of a length prefix, returning the tail. -/
def decodeUleb : List Nat → Except DecErr (Nat × List Nat)
  | [] => .error .insufficientData
  | b :: rest =>
    if b < 128 then .ok (b, rest)
    else
      match decodeUleb rest with
      | .ok (n, r) => .ok (b % 128 + 128 * n, r)
      | .error e => .error e

/-- Read exactly `n` raw bytes if available, else signal insufficiency. -/
def readN (n : Nat) (input : List Nat) : Except DecErr (List Nat × List Nat) :=
  if n ≤ input.length then .ok (input.take n, input.drop n) else .error .insufficientData

/-- Decode `k` consecutive values with the element decoder `dec`. -/
def decodeList (dec : List Nat → Except DecErr (CValue × List Nat)) :
    Nat → List Nat → Except DecErr (List CValue × List Nat)
  | 0, input => .ok ([], input)
  | k + 1, input =>
    match dec input with
    | .ok (v, r) =>
      match decodeList dec k r with
      | .ok (vs, r') => .ok (v :: vs, r')
      | .error e => .error e
    | .error e => .error e

/-- Modelled from the spec: Row Codec decode of one column value; reports
`insufficientData` rather than failing when the available bytes cannot
complete the value (spec section 4.1); the source module `rowbinary` is
missing from `src/`. -/
def decodeValue : CType → List Nat → Except DecErr (CValue × List Nat)
  | .uintT w, input =>
    match decLE w.bytes input with
    | .ok (n, r) => .ok (.uintV n, r)
    | .error e => .error e
  | .intT w, input =>
    match decLE w.bytes input with
    | .ok (n, r) =>
      .ok (.intV (if n < 2 ^ (8 * w.bytes - 1) then (n : Int)
                  else (n : Int) - (2 : Int) ^ (8 * w.bytes)), r)
    | .error e => .error e
  | .float32T, input =>
    match decLE 4 input with
    | .ok (n, r) => .ok (.floatV n, r)
    | .error e => .error e
  | .float64T, input =>
    match decLE 8 input with
    | .ok (n, r) => .ok (.floatV n, r)
    | .error e => .error e
  | .boolT, input =>
    match input with
    | [] => .error .insufficientData
    | 0 :: r => .ok (.boolV false, r)
    | 1 :: r => .ok (.boolV true, r)
    | _ :: _ => .error .malformed
  | .stringT, input =>
    match decodeUleb input with
    | .ok (len, r) =>
      match readN len r with
      | .ok (bs, r') => .ok (.stringV bs, r')
      | .error e => .error e
    | .error e => .error e
  | .fixedStringT n, input =>
    match readN (n + 1) input with
    | .ok (bs, r) => .ok (.fixedStringV bs, r)
    | .error e => .error e
  | .nullableT t, input =>
    match input with
    | [] => .error .insufficientData
    | 0 :: r =>
      match decodeValue t r with
      | .ok (v, r') => .ok (.someV v, r')
      | .error e => .error e
    | 1 :: r => .ok (.nullV, r)
    | _ :: _ => .error .malformed
  | .arrayT t, input =>
    match decodeUleb input with
    | .ok (len, r) =>
      match decodeList (decodeValue t) len r with
      | .ok (vs, r') => .ok (.arrayV vs, r')
      | .error e => .error e
    | .error e => .error e

/-- Modelled from the spec: Row Codec decode of one whole row ("attempts to
read one full row"); the source module `rowbinary` is missing from `src/`. -/
def decodeRow : List CType → List Nat → Except DecErr (List CValue × List Nat)
  | [], input => .ok ([], input)
  | t :: ts, input =>
    match decodeValue t input with
    | .ok (v, r) =>
      match decodeRow ts r with
      | .ok (vs, r') => .ok (v :: vs, r')
      | .error e => .error e
    | .error e => .error e

example : decodeRow [.uintT .w32, .stringT]
    (encodeRow [.uintT .w32, .stringT] [.uintV 1, .stringV [97]]) =
    .ok ([.uintV 1, .stringV [97]], []) := by rfl

/-- Each width has at least one byte. -/
theorem IntWidth.bytes_pos (w : IntWidth) : 1 ≤ w.bytes := by
  cases w <;> simp [IntWidth.bytes]

/-- `encLE` always produces exactly `w` bytes. -/
theorem encLE_length (w : Nat) : ∀ n, (encLE w n).length = w := by
  induction w with
  | zero => intro n; simp [encLE]
  | succ w ih => intro n; simp [encLE, ih]

/-- Little-endian round-trip: decoding the encoding of an in-range value
returns the value and leaves the trailing bytes untouched. -/
theorem decLE_encLE (w : Nat) : ∀ (n : Nat) (rest : List Nat), n < 256 ^ w →
    decLE w (encLE w n ++ rest) = .ok (n, rest) := by
  induction w with
  | zero =>
    intro n rest h
    simp only [pow_zero, Nat.lt_one_iff] at h
    subst h
    simp [encLE, decLE]
  | succ w ih =>
    intro n rest h
    have hdiv : n / 256 < 256 ^ w := by
      rw [Nat.div_lt_iff_lt_mul (by norm_num)]
      calc n < 256 ^ (w + 1) := h
        _ = 256 ^ w * 256 := by rw [pow_succ]
    have hmod : n % 256 + 256 * (n / 256) = n := Nat.mod_add_div n 256
    simp [encLE, decLE, ih (n / 256) rest hdiv, hmod]

/-- LEB128 round-trip: decoding the encoding returns the value and leaves the
trailing bytes untouched. -/
theorem decodeUleb_uleb (n : Nat) : ∀ rest, decodeUleb (uleb n ++ rest) = .ok (n, rest) := by
  intro rest
  rw [uleb_eq]
  by_cases hn : n < 128
  · simp [hn, decodeUleb]
  · have hb : ¬ (n % 128 + 128 < 128) := by omega
    have hrec := decodeUleb_uleb (n / 128) rest
    simp only [hn, if_false, List.cons_append, decodeUleb, hb, hrec]
    have : n % 128 + 128 * (n / 128) = n := Nat.mod_add_div n 128
    simp [Nat.add_mod_left]
    omega
termination_by n
decreasing_by omega

/-- Signed fixed-width reconstruction: reading back the two's-complement
residue of an in-range integer reproduces the integer. -/
theorem int_reconstruct (M : Int) (Hn : Nat) (hMH : M = 2 * (Hn : Int)) (i : Int)
    (h1 : -(Hn : Int) ≤ i) (h2 : i < (Hn : Int)) (n : Nat) (hn : (n : Int) = i % M) :
    (if n < Hn then (n : Int) else (n : Int) - M) = i := by
  have hH : 0 < (Hn : Int) := by omega
  rcases le_or_lt 0 i with hi | hi
  · have : i % M = i := Int.emod_eq_of_lt hi (by omega)
    rw [this] at hn
    split <;> omega
  · have hM1 : i % M = (i + M) % M := by
      have := Int.add_mul_emod_self_left (a := i) (b := M) (c := 1)
      simp only [mul_one] at this
      exact this.symm
    have h0 : (0 : Int) ≤ i + M := by omega
    have hlt : i + M < M := by omega
    rw [hM1, Int.emod_eq_of_lt h0 hlt] at hn
    split <;> omega

/-- Value-level round-trip of the Row Codec: for every well-typed value,
decode after encode returns the value and the untouched trailing bytes. -/
theorem decodeValue_encodeValue (t : CType) : ∀ v, hasType v t = true →
    ∀ rest, decodeValue t (encodeValue t v ++ rest) = Except.ok (v, rest) := by
  induction t with
  | uintT w =>
    intro v h rest
    cases v <;> simp [hasType] at h
    rename_i n
    have hn : n < 256 ^ w.bytes := by
      have h2 : (2 : Nat) ^ (8 * w.bytes) = 256 ^ w.bytes := by
        rw [pow_mul]
        norm_num
      omega
    simp [encodeValue, decodeValue, decLE_encLE w.bytes n rest hn]
  | intT w =>
    intro v h rest
    cases v <;> simp [hasType] at h
    rename_i i
    obtain ⟨h1, h2⟩ := h
    have hbpos : 1 ≤ w.bytes := IntWidth.bytes_pos w
    have hsplit : 8 * w.bytes = (8 * w.bytes - 1) + 1 := by omega
    have hpow : (2 : Int) ^ (8 * w.bytes) = 2 * (2 : Int) ^ (8 * w.bytes - 1) := by
      conv_lhs => rw [hsplit]
      rw [pow_succ]
      ring
    have hHcast : (((2 : Nat) ^ (8 * w.bytes - 1) : Nat) : Int) = (2 : Int) ^ (8 * w.bytes - 1) := by
      push_cast
      ring
    have hMH : (2 : Int) ^ (8 * w.bytes) = 2 * (((2 : Nat) ^ (8 * w.bytes - 1) : Nat) : Int) := by
      rw [hHcast, hpow]
    have hnn : (0 : Int) ≤ i % ((2 : Int) ^ (8 * w.bytes)) := Int.emod_nonneg i (by positivity)
    have hlt : i % ((2 : Int) ^ (8 * w.bytes)) < (2 : Int) ^ (8 * w.bytes) :=
      Int.emod_lt_of_pos i (by positivity)
    have htn : (i % ((2 : Int) ^ (8 * w.bytes))).toNat < 256 ^ w.bytes := by
      have h256 : (((256 : Nat) ^ w.bytes : Nat) : Int) = (2 : Int) ^ (8 * w.bytes) := by
        push_cast
        rw [pow_mul]
        norm_num
      omega
    simp only [encodeValue, decodeValue, decLE_encLE w.bytes _ rest htn]
    have hn : (((i % ((2 : Int) ^ (8 * w.bytes))).toNat : Nat) : Int) =
        i % ((2 : Int) ^ (8 * w.bytes)) := Int.toNat_of_nonneg hnn
    have hfix := int_reconstruct ((2 : Int) ^ (8 * w.bytes)) ((2 : Nat) ^ (8 * w.bytes - 1)) hMH i
      (by rw [hHcast]; exact h1) (by rw [hHcast]; exact h2) _ hn
    rw [hfix]
  | float32T =>
    intro v h rest
    cases v <;> simp [hasType] at h
    rename_i bits
    have hb : bits < 256 ^ 4 := by norm_num at h ⊢; omega
    simp [encodeValue, decodeValue, decLE_encLE 4 bits rest hb]
  | float64T =>
    intro v h rest
    cases v <;> simp [hasType] at h
    rename_i bits
    have hb : bits < 256 ^ 8 := by norm_num at h ⊢; omega
    simp [encodeValue, decodeValue, decLE_encLE 8 bits rest hb]
  | boolT =>
    intro v h rest
    cases v <;> simp [hasType] at h
    rename_i b
    cases b <;> simp [encodeValue, decodeValue]
  | stringT =>
    intro v h rest
    cases v <;> simp [hasType] at h
    rename_i bs
    simp only [encodeValue, decodeValue, List.append_assoc, decodeUleb_uleb bs.length (bs ++ rest)]
    simp [readN, List.take_left, List.drop_left]
  | fixedStringT m =>
    intro v h rest
    cases v <;> simp [hasType] at h
    rename_i bs
    obtain ⟨hlen, _⟩ := h
    simp only [encodeValue, decodeValue, readN]
    rw [← hlen]
    simp [List.take_left, List.drop_left]
  | nullableT t ih =>
    intro v h rest
    cases v <;> simp [hasType] at h
    · simp [encodeValue, decodeValue]
    · rename_i v
      simp [encodeValue, decodeValue, ih v h rest]
  | arrayT t ih =>
    intro v h rest
    cases v <;> simp [hasType] at h
    rename_i vs
    simp only [encodeValue, decodeValue, List.append_assoc,
      decodeUleb_uleb vs.length ((vs.map (encodeValue t)).flatten ++ rest)]
    have hlist : ∀ (us : List CValue), us.all (fun v => hasType v t) = true → ∀ rst,
        decodeList (decodeValue t) us.length ((us.map (encodeValue t)).flatten ++ rst) =
          .ok (us, rst) := by
      intro us
      induction us with
      | nil => intro hall rst; simp [decodeList]
      | cons u us ihl =>
        intro hall rst
        simp only [List.all_cons, Bool.and_eq_true] at hall
        obtain ⟨hu, hus⟩ := hall
        simp [decodeList, List.append_assoc, ih u hu, ihl hus]
    simp [hlist vs (by simpa using h) rest]

/-- Modelled from the spec: a row value matches a row type when arities agree
and each field is well-typed in declared column order (spec section 3,
"Row"); the source module `rowbinary` is missing from `src/`. -/
def rowHasType : List CValue → List CType → Bool
  | [], [] => true
  | v :: vs, t :: ts => hasType v t && rowHasType vs ts
  | _, _ => false

/-- Row-level round-trip of the Row Codec. -/
theorem decodeRow_encodeRow (ty : List CType) : ∀ (row : List CValue),
    rowHasType row ty = true → ∀ rest,
    decodeRow ty (encodeRow ty row ++ rest) = Except.ok (row, rest) := by
  induction ty with
  | nil =>
    intro row h rest
    cases row with
    | nil => simp [encodeRow, decodeRow]
    | cons v vs => simp [rowHasType] at h
  | cons t ts ih =>
    intro row h rest
    cases row with
    | nil => simp [rowHasType] at h
    | cons v vs =>
      simp only [rowHasType, Bool.and_eq_true] at h
      obtain ⟨h1, h2⟩ := h
      simp [encodeRow, decodeRow, List.append_assoc,
        decodeValue_encodeValue t v h1, ih vs h2]

/-- C1: for every row value of every supported column type (including null,
empty string, empty array, and maximum-width integers), encoding the row
with the Row Codec and then decoding the resulting bytes with the same row
type yields a value equal to the original row (with any trailing bytes left
as the unconsumed remainder). -/
theorem c1_row_codec_roundtrip (ty : List CType) (row : List CValue)
    (h : rowHasType row ty = true) (rest : List Nat) :
    decodeRow ty (encodeRow ty row ++ rest) = Except.ok (row, rest) :=
  decodeRow_encodeRow ty row h rest

set_option maxRecDepth 4000 in
/-- Witness for C1 at a concrete row exercising a maximum-width (128-bit)
integer, a null, an empty string and an empty array. -/
theorem c1_row_codec_roundtrip_witness :
    rowHasType
        [.uintV (2 ^ 128 - 1), .intV (-(2 ^ 127)), .stringV [], .arrayV [], .nullV]
        [.uintT .w128, .intT .w128, .stringT, .arrayT .boolT, .nullableT .stringT] = true ∧
    decodeRow [.uintT .w128, .intT .w128, .stringT, .arrayT .boolT, .nullableT .stringT]
        (encodeRow [.uintT .w128, .intT .w128, .stringT, .arrayT .boolT, .nullableT .stringT]
          [.uintV (2 ^ 128 - 1), .intV (-(2 ^ 127)), .stringV [], .arrayV [], .nullV] ++ []) =
      Except.ok
        ([.uintV (2 ^ 128 - 1), .intV (-(2 ^ 127)), .stringV [], .arrayV [], .nullV], []) :=
  ⟨by decide, c1_row_codec_roundtrip _ _ (by decide) []⟩

/-- Too few bytes for a fixed-width read always signal insufficiency. -/
theorem decLE_short (w : Nat) : ∀ l : List Nat, l.length < w →
    decLE w l = .error .insufficientData := by
  induction w with
  | zero => intro l h; omega
  | succ w ih =>
    intro l h
    cases l with
    | nil => simp [decLE]
    | cons b rest =>
      simp only [List.length_cons] at h
      simp [decLE, ih rest (by omega)]

/-- A LEB128 encoding is never empty. -/
theorem uleb_length_pos (n : Nat) : 1 ≤ (uleb n).length := by
  rw [uleb_eq]
  split <;> simp

/-- Every strict prefix of a LEB128 encoding signals insufficiency. -/
theorem decodeUleb_take (n : Nat) : ∀ k, k < (uleb n).length →
    decodeUleb ((uleb n).take k) = .error .insufficientData := by
  intro k hk
  rw [uleb_eq] at hk ⊢
  by_cases hn : n < 128
  · simp only [hn, if_true] at hk ⊢
    simp only [List.length_cons, List.length_nil] at hk
    have : k = 0 := by omega
    subst this
    simp [decodeUleb]
  · simp only [hn, if_false] at hk ⊢
    cases k with
    | zero => simp [decodeUleb]
    | succ j =>
      simp only [List.length_cons] at hk
      have hb : ¬ (n % 128 + 128 < 128) := by omega
      have hrec := decodeUleb_take (n / 128) j (by omega)
      simp [decodeUleb, hb, hrec]
termination_by n
decreasing_by omega

/-- A well-typed value never encodes to zero bytes. -/
theorem encodeValue_length_pos (t : CType) (v : CValue) (h : hasType v t = true) :
    1 ≤ (encodeValue t v).length := by
  cases t with
  | uintT w =>
    cases v <;> simp [hasType] at h
    simp [encodeValue, encLE_length]
    exact IntWidth.bytes_pos w
  | intT w =>
    cases v <;> simp [hasType] at h
    simp [encodeValue, encLE_length]
    exact IntWidth.bytes_pos w
  | float32T =>
    cases v <;> simp [hasType] at h
    simp [encodeValue, encLE_length]
  | float64T =>
    cases v <;> simp [hasType] at h
    simp [encodeValue, encLE_length]
  | boolT =>
    cases v <;> simp [hasType] at h
    simp [encodeValue]
  | stringT =>
    cases v <;> simp [hasType] at h
    simp [encodeValue]
    have := uleb_length_pos (by assumption : List Nat).length
    omega
  | fixedStringT m =>
    cases v <;> simp [hasType] at h
    simp [encodeValue]
    omega
  | nullableT t =>
    cases v <;> simp [hasType] at h <;> simp [encodeValue]
  | arrayT t =>
    cases v <;> simp [hasType] at h
    simp [encodeValue]
    have := uleb_length_pos (by assumption : List CValue).length
    omega

/-- Value-level insufficiency: every strict prefix of a well-typed value's
encoding makes decode report `insufficientData` — never `malformed`. -/
theorem decodeValue_take (t : CType) : ∀ v, hasType v t = true →
    ∀ k, k < (encodeValue t v).length →
    decodeValue t ((encodeValue t v).take k) = .error .insufficientData := by
  induction t with
  | uintT w =>
    intro v h k hk
    cases v <;> simp [hasType] at h
    rename_i n
    simp only [encodeValue, encLE_length] at hk
    have hs : decLE w.bytes ((encLE w.bytes n).take k) = .error .insufficientData := by
      apply decLE_short
      simp [List.length_take, encLE_length]
      omega
    simp [encodeValue, decodeValue, hs]
  | intT w =>
    intro v h k hk
    cases v <;> simp [hasType] at h
    rename_i i
    simp only [encodeValue, encLE_length] at hk
    have hs : decLE w.bytes
        ((encLE w.bytes (i % ((2 : Int) ^ (8 * w.bytes))).toNat).take k) =
        .error .insufficientData := by
      apply decLE_short
      simp [List.length_take, encLE_length]
      omega
    simp [encodeValue, decodeValue, hs]
  | float32T =>
    intro v h k hk
    cases v <;> simp [hasType] at h
    rename_i bits
    simp only [encodeValue, encLE_length] at hk
    have hs : decLE 4 ((encLE 4 bits).take k) = .error .insufficientData := by
      apply decLE_short
      simp [List.length_take, encLE_length]
      omega
    simp [encodeValue, decodeValue, hs]
  | float64T =>
    intro v h k hk
    cases v <;> simp [hasType] at h
    rename_i bits
    simp only [encodeValue, encLE_length] at hk
    have hs : decLE 8 ((encLE 8 bits).take k) = .error .insufficientData := by
      apply decLE_short
      simp [List.length_take, encLE_length]
      omega
    simp [encodeValue, decodeValue, hs]
  | boolT =>
    intro v h k hk
    cases v <;> simp [hasType] at h
    rename_i b
    simp only [encodeValue, List.length_cons, List.length_nil] at hk
    have : k = 0 := by omega
    subst this
    simp [decodeValue]
  | stringT =>
    intro v h k hk
    cases v <;> simp [hasType] at h
    rename_i bs
    simp only [encodeValue, List.length_append] at hk
    by_cases hcase : k < (uleb bs.length).length
    · have htake : (encodeValue .stringT (.stringV bs)).take k = (uleb bs.length).take k := by
        simp only [encodeValue]
        exact List.take_append_of_le_length (by omega)
      rw [htake]
      simp [decodeValue, decodeUleb_take bs.length k hcase]
    · push_neg at hcase
      have htake : (encodeValue .stringT (.stringV bs)).take k =
          uleb bs.length ++ bs.take (k - (uleb bs.length).length) := by
        simp only [encodeValue]
        rw [List.take_append_eq_append_take, List.take_of_length_le hcase]
      rw [htake]
      simp only [decodeValue, decodeUleb_uleb, readN]
      rw [if_neg (by simp only [List.length_take]; omega)]
  | fixedStringT m =>
    intro v h k hk
    cases v <;> simp [hasType] at h
    rename_i bs
    obtain ⟨hlen, -⟩ := h
    simp only [encodeValue] at hk
    simp only [encodeValue, decodeValue, readN]
    rw [if_neg (by simp only [List.length_take]; omega)]
  | nullableT t ih =>
    intro v h k hk
    cases v <;> simp [hasType] at h
    · simp only [encodeValue, List.length_cons, List.length_nil] at hk
      have : k = 0 := by omega
      subst this
      simp [decodeValue]
    · rename_i v
      simp only [encodeValue, List.length_cons] at hk
      cases k with
      | zero => simp [decodeValue]
      | succ j =>
        simp only [encodeValue, List.take_succ_cons]
        simp [decodeValue, ih v h j (by omega)]
  | arrayT t ih =>
    intro v h k hk
    cases v <;> simp [hasType] at h
    rename_i vs
    have inner : ∀ us : List CValue, us.all (fun v => hasType v t) = true →
        ∀ j, j < ((us.map (encodeValue t)).flatten).length →
        decodeList (decodeValue t) us.length (((us.map (encodeValue t)).flatten).take j) =
          .error .insufficientData := by
      intro us
      induction us with
      | nil => intro hall j hj; simp at hj
      | cons u us ihl =>
        intro hall j hj
        simp only [List.all_cons, Bool.and_eq_true] at hall
        obtain ⟨hu, hus⟩ := hall
        simp only [List.map_cons, List.flatten_cons, List.length_append] at hj
        simp only [List.map_cons, List.flatten_cons]
        by_cases hcase : j < (encodeValue t u).length
        · have htake : ((encodeValue t u ++ (us.map (encodeValue t)).flatten).take j) =
              (encodeValue t u).take j := List.take_append_of_le_length (by omega)
          rw [htake]
          simp [decodeList, ih u hu j hcase]
        · push_neg at hcase
          have htake : ((encodeValue t u ++ (us.map (encodeValue t)).flatten).take j) =
              encodeValue t u ++
                ((us.map (encodeValue t)).flatten).take (j - (encodeValue t u).length) := by
            rw [List.take_append_eq_append_take, List.take_of_length_le hcase]
          rw [htake]
          have hj' : j - (encodeValue t u).length < ((us.map (encodeValue t)).flatten).length := by
            omega
          simp [decodeList, decodeValue_encodeValue t u hu, ihl hus _ hj']
    simp only [encodeValue, List.length_append] at hk
    by_cases hcase : k < (uleb vs.length).length
    · have htake : (encodeValue (.arrayT t) (.arrayV vs)).take k = (uleb vs.length).take k := by
        simp only [encodeValue]
        exact List.take_append_of_le_length (by omega)
      rw [htake]
      simp [decodeValue, decodeUleb_take vs.length k hcase]
    · push_neg at hcase
      have htake : (encodeValue (.arrayT t) (.arrayV vs)).take k =
          uleb vs.length ++
            ((vs.map (encodeValue t)).flatten).take (k - (uleb vs.length).length) := by
        simp only [encodeValue]
        rw [List.take_append_eq_append_take, List.take_of_length_le hcase]
      rw [htake]
      have hj' : k - (uleb vs.length).length < ((vs.map (encodeValue t)).flatten).length := by
        omega
      simp [decodeValue, decodeUleb_uleb, inner vs (by simpa using h) _ hj']

/-- Row-level insufficiency: every strict prefix of a well-typed row's
encoding makes row decode report `insufficientData`. -/
theorem decodeRow_take (ty : List CType) : ∀ row, rowHasType row ty = true →
    ∀ k, k < (encodeRow ty row).length →
    decodeRow ty ((encodeRow ty row).take k) = .error .insufficientData := by
  induction ty with
  | nil =>
    intro row h k hk
    cases row with
    | nil => simp [encodeRow] at hk
    | cons v vs => simp [rowHasType] at h
  | cons t ts ih =>
    intro row h k hk
    cases row with
    | nil => simp [rowHasType] at h
    | cons v vs =>
      simp only [rowHasType, Bool.and_eq_true] at h
      obtain ⟨h1, h2⟩ := h
      simp only [encodeRow, List.length_append] at hk
      by_cases hcase : k < (encodeValue t v).length
      · have htake : (encodeRow (t :: ts) (v :: vs)).take k = (encodeValue t v).take k := by
          simp only [encodeRow]
          exact List.take_append_of_le_length (by omega)
        rw [htake]
        simp [decodeRow, decodeValue_take t v h1 k hcase]
      · push_neg at hcase
        have htake : (encodeRow (t :: ts) (v :: vs)).take k =
            encodeValue t v ++ (encodeRow ts vs).take (k - (encodeValue t v).length) := by
          simp only [encodeRow]
          rw [List.take_append_eq_append_take, List.take_of_length_le hcase]
        rw [htake]
        have hk' : k - (encodeValue t v).length < (encodeRow ts vs).length := by omega
        simp [decodeRow, decodeValue_encodeValue t v h1, ih vs h2 _ hk']

/-- C5: whenever the available bytes are a strict prefix of a row's encoding
(in particular, insufficient to complete even one field), Row Codec decode
reports the internal "need more data" signal `insufficientData` — it neither
fails with `malformed` nor returns a row.  Decode is a pure function of the
byte list, so no caller state is mutated.  (The Cursor below converts this
internal signal into either more buffering or a truncated-stream error; its
surfaced error type `CursorErr` has no insufficiency constructor, so the
signal is never surfaced to the caller.) -/
theorem c5_insufficient_data_signal (ty : List CType) (row : List CValue)
    (h : rowHasType row ty = true) (k : Nat) (hk : k < (encodeRow ty row).length) :
    decodeRow ty ((encodeRow ty row).take k) = Except.error DecErr.insufficientData :=
  decodeRow_take ty row h k hk

/-- Witness for C5: two of the four bytes of an encoded 32-bit column. -/
theorem c5_insufficient_data_signal_witness :
    rowHasType [.uintV 5] [.uintT .w32] = true ∧
    2 < (encodeRow [.uintT .w32] [.uintV 5]).length ∧
    decodeRow [.uintT .w32] ((encodeRow [.uintT .w32] [.uintV 5]).take 2) =
      Except.error DecErr.insufficientData :=
  ⟨by decide, by decide, c5_insufficient_data_signal _ _ (by decide) 2 (by decide)⟩

/-- Appending bytes after a successful fixed-width read leaves the read
intact and lands the new bytes in the tail. -/
theorem decLE_ext (w : Nat) : ∀ buf tail n r, decLE w buf = .ok (n, r) →
    decLE w (buf ++ tail) = .ok (n, r ++ tail) := by
  induction w with
  | zero =>
    intro buf tail n r h
    simp only [decLE, Except.ok.injEq, Prod.mk.injEq] at h
    obtain ⟨h1, h2⟩ := h
    subst h1
    subst h2
    simp [decLE]
  | succ w ih =>
    intro buf tail n r h
    cases buf with
    | nil => simp [decLE] at h
    | cons b rest =>
      simp only [decLE] at h
      cases hrec : decLE w rest with
      | error e => rw [hrec] at h; cases h
      | ok p =>
        obtain ⟨m, r'⟩ := p
        rw [hrec] at h
        simp only [Except.ok.injEq, Prod.mk.injEq] at h
        obtain ⟨h1, h2⟩ := h
        subst h1
        subst h2
        simp [decLE, ih rest tail m r' hrec]

/-- A fixed-width read never reports `malformed`. -/
theorem decLE_not_malformed (w : Nat) : ∀ buf, decLE w buf ≠ .error .malformed := by
  induction w with
  | zero => intro buf h; simp [decLE] at h
  | succ w ih =>
    intro buf h
    cases buf with
    | nil => simp [decLE] at h
    | cons b rest =>
      simp only [decLE] at h
      cases hrec : decLE w rest with
      | error e =>
        rw [hrec] at h
        simp only [Except.error.injEq] at h
        subst h
        exact ih rest hrec
      | ok p => rw [hrec] at h; cases h

/-- Appending bytes after a successful LEB128 read leaves the read intact. -/
theorem decodeUleb_ext : ∀ buf tail n r, decodeUleb buf = .ok (n, r) →
    decodeUleb (buf ++ tail) = .ok (n, r ++ tail) := by
  intro buf
  induction buf with
  | nil => intro tail n r h; simp [decodeUleb] at h
  | cons b rest ih =>
    intro tail n r h
    simp only [decodeUleb] at h
    by_cases hb : b < 128
    · simp only [hb, if_true, Except.ok.injEq, Prod.mk.injEq] at h
      obtain ⟨h1, h2⟩ := h
      subst h1
      subst h2
      simp [decodeUleb, hb]
    · simp only [hb, if_false] at h
      cases hrec : decodeUleb rest with
      | error e => rw [hrec] at h; cases h
      | ok p =>
        obtain ⟨m, r'⟩ := p
        rw [hrec] at h
        simp only [Except.ok.injEq, Prod.mk.injEq] at h
        obtain ⟨h1, h2⟩ := h
        subst h1
        subst h2
        simp [decodeUleb, hb, ih tail m r' hrec]

/-- A LEB128 read never reports `malformed`. -/
theorem decodeUleb_not_malformed : ∀ buf, decodeUleb buf ≠ .error .malformed := by
  intro buf
  induction buf with
  | nil => intro h; simp [decodeUleb] at h
  | cons b rest ih =>
    intro h
    simp only [decodeUleb] at h
    by_cases hb : b < 128
    · simp [hb] at h
    · simp only [hb, if_false] at h
      cases hrec : decodeUleb rest with
      | error e =>
        rw [hrec] at h
        simp only [Except.error.injEq] at h
        subst h
        exact ih hrec
      | ok p => rw [hrec] at h; cases h

/-- Appending bytes after a successful raw read leaves the read intact. -/
theorem readN_ext (n : Nat) : ∀ buf tail bs r, readN n buf = .ok (bs, r) →
    readN n (buf ++ tail) = .ok (bs, r ++ tail) := by
  intro buf tail bs r h
  simp only [readN] at h
  by_cases hle : n ≤ buf.length
  · simp only [hle, if_true, Except.ok.injEq, Prod.mk.injEq] at h
    obtain ⟨h1, h2⟩ := h
    subst h1
    subst h2
    have hle2 : n ≤ (buf ++ tail).length := by simp [List.length_append]; omega
    simp only [readN, hle2, if_true]
    rw [List.take_append_of_le_length hle, List.drop_append_of_le_length hle]
  · simp [hle] at h

/-- A raw read never reports `malformed`. -/
theorem readN_not_malformed (n : Nat) (buf : List Nat) : readN n buf ≠ .error .malformed := by
  simp only [readN]
  split <;> simp

/-- Extension behaviour of `decodeList`, given that of the element decoder. -/
theorem decodeList_ext (t : CType)
    (ihext : ∀ buf tail,
      (∀ v r, decodeValue t buf = .ok (v, r) →
        decodeValue t (buf ++ tail) = .ok (v, r ++ tail)) ∧
      (decodeValue t buf = .error .malformed →
        decodeValue t (buf ++ tail) = .error .malformed)) :
    ∀ k buf tail,
    (∀ vs r, decodeList (decodeValue t) k buf = .ok (vs, r) →
      decodeList (decodeValue t) k (buf ++ tail) = .ok (vs, r ++ tail)) ∧
    (decodeList (decodeValue t) k buf = .error .malformed →
      decodeList (decodeValue t) k (buf ++ tail) = .error .malformed) := by
  intro k
  induction k with
  | zero =>
    intro buf tail
    constructor
    · intro vs r h
      simp only [decodeList, Except.ok.injEq, Prod.mk.injEq] at h
      obtain ⟨h1, h2⟩ := h
      subst h1
      subst h2
      simp [decodeList]
    · intro h
      simp [decodeList] at h
  | succ k ih =>
    intro buf tail
    constructor
    · intro vs r h
      simp only [decodeList] at h ⊢
      cases hv : decodeValue t buf with
      | error e => rw [hv] at h; cases h
      | ok p =>
        obtain ⟨v, r1⟩ := p
        rw [hv] at h
        simp only [Except.ok.injEq] at h
        cases hl : decodeList (decodeValue t) k r1 with
        | error e => rw [hl] at h; cases h
        | ok q =>
          obtain ⟨ws, r2⟩ := q
          rw [hl] at h
          simp only [Except.ok.injEq, Prod.mk.injEq] at h
          obtain ⟨h1, h2⟩ := h
          subst h1
          subst h2
          simp only [(ihext buf tail).1 v r1 hv, ((ih r1 tail).1 ws r2 hl)]
    · intro h
      simp only [decodeList] at h ⊢
      cases hv : decodeValue t buf with
      | error e =>
        rw [hv] at h
        simp only [Except.error.injEq] at h
        subst h
        simp only [(ihext buf tail).2 hv]
      | ok p =>
        obtain ⟨v, r1⟩ := p
        rw [hv] at h
        simp only [Except.error.injEq] at h
        cases hl : decodeList (decodeValue t) k r1 with
        | error e =>
          rw [hl] at h
          simp only [Except.error.injEq] at h
          subst h
          simp only [(ihext buf tail).1 v r1 hv, ((ih r1 tail).2 hl)]
        | ok q => rw [hl] at h; cases h

/-- Chunk-extension behaviour of the value decoder: appending further bytes
after a decodable value leaves the decoded value unchanged and lands the new
bytes in the tail, and a `malformed` verdict is stable under extension.
Only the `insufficientData` verdict can change when more bytes arrive. -/
theorem decodeValue_ext (t : CType) : ∀ buf tail,
    (∀ v r, decodeValue t buf = .ok (v, r) →
      decodeValue t (buf ++ tail) = .ok (v, r ++ tail)) ∧
    (decodeValue t buf = .error .malformed →
      decodeValue t (buf ++ tail) = .error .malformed) := by
  induction t with
  | uintT w =>
    intro buf tail
    constructor
    · intro v r h
      simp only [decodeValue] at h ⊢
      cases hd : decLE w.bytes buf with
      | error e => rw [hd] at h; cases h
      | ok p =>
        obtain ⟨n, r'⟩ := p
        rw [hd] at h
        simp only [Except.ok.injEq, Prod.mk.injEq] at h
        obtain ⟨h1, h2⟩ := h
        subst h1
        subst h2
        rw [decLE_ext w.bytes buf tail n r' hd]
    · intro h
      simp only [decodeValue] at h
      cases hd : decLE w.bytes buf with
      | error e =>
        rw [hd] at h
        simp only [Except.error.injEq] at h
        subst h
        exact absurd hd (decLE_not_malformed _ _)
      | ok p => rw [hd] at h; cases h
  | intT w =>
    intro buf tail
    constructor
    · intro v r h
      simp only [decodeValue] at h ⊢
      cases hd : decLE w.bytes buf with
      | error e => rw [hd] at h; cases h
      | ok p =>
        obtain ⟨n, r'⟩ := p
        rw [hd] at h
        simp only [Except.ok.injEq, Prod.mk.injEq] at h
        obtain ⟨h1, h2⟩ := h
        subst h1
        subst h2
        rw [decLE_ext w.bytes buf tail n r' hd]
    · intro h
      simp only [decodeValue] at h
      cases hd : decLE w.bytes buf with
      | error e =>
        rw [hd] at h
        simp only [Except.error.injEq] at h
        subst h
        exact absurd hd (decLE_not_malformed _ _)
      | ok p => rw [hd] at h; cases h
  | float32T =>
    intro buf tail
    constructor
    · intro v r h
      simp only [decodeValue] at h ⊢
      cases hd : decLE 4 buf with
      | error e => rw [hd] at h; cases h
      | ok p =>
        obtain ⟨n, r'⟩ := p
        rw [hd] at h
        simp only [Except.ok.injEq, Prod.mk.injEq] at h
        obtain ⟨h1, h2⟩ := h
        subst h1
        subst h2
        rw [decLE_ext 4 buf tail n r' hd]
    · intro h
      simp only [decodeValue] at h
      cases hd : decLE 4 buf with
      | error e =>
        rw [hd] at h
        simp only [Except.error.injEq] at h
        subst h
        exact absurd hd (decLE_not_malformed _ _)
      | ok p => rw [hd] at h; cases h
  | float64T =>
    intro buf tail
    constructor
    · intro v r h
      simp only [decodeValue] at h ⊢
      cases hd : decLE 8 buf with
      | error e => rw [hd] at h; cases h
      | ok p =>
        obtain ⟨n, r'⟩ := p
        rw [hd] at h
        simp only [Except.ok.injEq, Prod.mk.injEq] at h
        obtain ⟨h1, h2⟩ := h
        subst h1
        subst h2
        rw [decLE_ext 8 buf tail n r' hd]
    · intro h
      simp only [decodeValue] at h
      cases hd : decLE 8 buf with
      | error e =>
        rw [hd] at h
        simp only [Except.error.injEq] at h
        subst h
        exact absurd hd (decLE_not_malformed _ _)
      | ok p => rw [hd] at h; cases h
  | boolT =>
    intro buf tail
    constructor
    · intro v r h
      cases buf with
      | nil => simp [decodeValue] at h
      | cons b rest =>
        match b with
        | 0 =>
          simp only [decodeValue, Except.ok.injEq, Prod.mk.injEq] at h
          obtain ⟨h1, h2⟩ := h
          subst h1
          subst h2
          simp [decodeValue]
        | 1 =>
          simp only [decodeValue, Except.ok.injEq, Prod.mk.injEq] at h
          obtain ⟨h1, h2⟩ := h
          subst h1
          subst h2
          simp [decodeValue]
        | b + 2 => simp [decodeValue] at h
    · intro h
      cases buf with
      | nil => simp [decodeValue] at h
      | cons b rest =>
        match b with
        | 0 => simp [decodeValue] at h
        | 1 => simp [decodeValue] at h
        | b + 2 => simp [decodeValue]
  | stringT =>
    intro buf tail
    constructor
    · intro v r h
      simp only [decodeValue] at h ⊢
      cases hu : decodeUleb buf with
      | error e => rw [hu] at h; cases h
      | ok p =>
        obtain ⟨len, r1⟩ := p
        rw [hu] at h
        simp only [Except.ok.injEq] at h
        cases hr : readN len r1 with
        | error e => rw [hr] at h; cases h
        | ok q =>
          obtain ⟨bs, r2⟩ := q
          rw [hr] at h
          simp only [Except.ok.injEq, Prod.mk.injEq] at h
          obtain ⟨h1, h2⟩ := h
          subst h1
          subst h2
          simp only [decodeUleb_ext buf tail len r1 hu, readN_ext len r1 tail bs r2 hr]
    · intro h
      simp only [decodeValue] at h ⊢
      cases hu : decodeUleb buf with
      | error e =>
        rw [hu] at h
        simp only [Except.error.injEq] at h
        subst h
        exact absurd hu (decodeUleb_not_malformed buf)
      | ok p =>
        obtain ⟨len, r1⟩ := p
        rw [hu] at h
        simp only [Except.ok.injEq] at h
        cases hr : readN len r1 with
        | error e =>
          rw [hr] at h
          simp only [Except.error.injEq] at h
          subst h
          exact absurd hr (readN_not_malformed len r1)
        | ok q => rw [hr] at h; cases h
  | fixedStringT m =>
    intro buf tail
    constructor
    · intro v r h
      simp only [decodeValue] at h ⊢
      cases hr : readN (m + 1) buf with
      | error e => rw [hr] at h; cases h
      | ok q =>
        obtain ⟨bs, r2⟩ := q
        rw [hr] at h
        simp only [Except.ok.injEq, Prod.mk.injEq] at h
        obtain ⟨h1, h2⟩ := h
        subst h1
        subst h2
        rw [readN_ext (m + 1) buf tail bs r2 hr]
    · intro h
      simp only [decodeValue] at h
      cases hr : readN (m + 1) buf with
      | error e =>
        rw [hr] at h
        simp only [Except.error.injEq] at h
        subst h
        exact absurd hr (readN_not_malformed (m + 1) buf)
      | ok q => rw [hr] at h; cases h
  | nullableT t ih =>
    intro buf tail
    constructor
    · intro v r h
      cases buf with
      | nil => simp [decodeValue] at h
      | cons b rest =>
        match b with
        | 0 =>
          simp only [decodeValue] at h ⊢
          cases hv : decodeValue t rest with
          | error e => rw [hv] at h; cases h
          | ok p =>
            obtain ⟨v', r'⟩ := p
            rw [hv] at h
            simp only [Except.ok.injEq, Prod.mk.injEq] at h
            obtain ⟨h1, h2⟩ := h
            subst h1
            subst h2
            rw [List.cons_append]
            simp only [decodeValue]
            simp only [(ih rest tail).1 v' r' hv]
        | 1 =>
          simp only [decodeValue, Except.ok.injEq, Prod.mk.injEq] at h
          obtain ⟨h1, h2⟩ := h
          subst h1
          subst h2
          simp [decodeValue]
        | b + 2 => simp [decodeValue] at h
    · intro h
      cases buf with
      | nil => simp [decodeValue] at h
      | cons b rest =>
        match b with
        | 0 =>
          simp only [decodeValue] at h ⊢
          cases hv : decodeValue t rest with
          | error e =>
            rw [hv] at h
            simp only [Except.error.injEq] at h
            subst h
            rw [List.cons_append]
            simp only [decodeValue]
            simp only [(ih rest tail).2 hv]
          | ok p => rw [hv] at h; cases h
        | 1 => simp [decodeValue] at h
        | b + 2 => simp [decodeValue]
  | arrayT t ih =>
    intro buf tail
    constructor
    · intro v r h
      simp only [decodeValue] at h ⊢
      cases hu : decodeUleb buf with
      | error e => rw [hu] at h; cases h
      | ok p =>
        obtain ⟨len, r1⟩ := p
        rw [hu] at h
        simp only [Except.ok.injEq] at h
        cases hl : decodeList (decodeValue t) len r1 with
        | error e => rw [hl] at h; cases h
        | ok q =>
          obtain ⟨vs, r2⟩ := q
          rw [hl] at h
          simp only [Except.ok.injEq, Prod.mk.injEq] at h
          obtain ⟨h1, h2⟩ := h
          subst h1
          subst h2
          simp only [decodeUleb_ext buf tail len r1 hu,
            (decodeList_ext t ih len r1 tail).1 vs r2 hl]
    · intro h
      simp only [decodeValue] at h ⊢
      cases hu : decodeUleb buf with
      | error e =>
        rw [hu] at h
        simp only [Except.error.injEq] at h
        subst h
        exact absurd hu (decodeUleb_not_malformed buf)
      | ok p =>
        obtain ⟨len, r1⟩ := p
        rw [hu] at h
        simp only [Except.ok.injEq] at h
        cases hl : decodeList (decodeValue t) len r1 with
        | error e =>
          rw [hl] at h
          simp only [Except.error.injEq] at h
          subst h
          simp only [decodeUleb_ext buf tail len r1 hu,
            (decodeList_ext t ih len r1 tail).2 hl]
        | ok q => rw [hl] at h; cases h

/-- Chunk-extension behaviour of the row decoder. -/
theorem decodeRow_ext (ty : List CType) : ∀ buf tail,
    (∀ vs r, decodeRow ty buf = .ok (vs, r) →
      decodeRow ty (buf ++ tail) = .ok (vs, r ++ tail)) ∧
    (decodeRow ty buf = .error .malformed →
      decodeRow ty (buf ++ tail) = .error .malformed) := by
  induction ty with
  | nil =>
    intro buf tail
    constructor
    · intro vs r h
      simp only [decodeRow, Except.ok.injEq, Prod.mk.injEq] at h
      obtain ⟨h1, h2⟩ := h
      subst h1
      subst h2
      simp [decodeRow]
    · intro h
      simp [decodeRow] at h
  | cons t ts ih =>
    intro buf tail
    constructor
    · intro vs r h
      simp only [decodeRow] at h ⊢
      cases hv : decodeValue t buf with
      | error e => rw [hv] at h; cases h
      | ok p =>
        obtain ⟨v, r1⟩ := p
        rw [hv] at h
        simp only [Except.ok.injEq] at h
        cases hl : decodeRow ts r1 with
        | error e => rw [hl] at h; cases h
        | ok q =>
          obtain ⟨ws, r2⟩ := q
          rw [hl] at h
          simp only [Except.ok.injEq, Prod.mk.injEq] at h
          obtain ⟨h1, h2⟩ := h
          subst h1
          subst h2
          simp only [(decodeValue_ext t buf tail).1 v r1 hv, ((ih r1 tail).1 ws r2 hl)]
    · intro h
      simp only [decodeRow] at h ⊢
      cases hv : decodeValue t buf with
      | error e =>
        rw [hv] at h
        simp only [Except.error.injEq] at h
        subst h
        simp only [(decodeValue_ext t buf tail).2 hv]
      | ok p =>
        obtain ⟨v, r1⟩ := p
        rw [hv] at h
        simp only [Except.ok.injEq] at h
        cases hl : decodeRow ts r1 with
        | error e =>
          rw [hl] at h
          simp only [Except.error.injEq] at h
          subst h
          simp only [(decodeValue_ext t buf tail).1 v r1 hv, ((ih r1 tail).2 hl)]
        | ok q => rw [hl] at h; cases h

/-- A successful fixed-width read consumes exactly `w` bytes. -/
theorem decLE_len (w : Nat) : ∀ buf n r, decLE w buf = .ok (n, r) →
    r.length + w = buf.length := by
  induction w with
  | zero =>
    intro buf n r h
    simp only [decLE, Except.ok.injEq, Prod.mk.injEq] at h
    obtain ⟨-, h2⟩ := h
    subst h2
    simp
  | succ w ih =>
    intro buf n r h
    cases buf with
    | nil => simp [decLE] at h
    | cons b rest =>
      simp only [decLE] at h
      cases hrec : decLE w rest with
      | error e => rw [hrec] at h; cases h
      | ok p =>
        obtain ⟨m, r'⟩ := p
        rw [hrec] at h
        simp only [Except.ok.injEq, Prod.mk.injEq] at h
        obtain ⟨-, h2⟩ := h
        subst h2
        have := ih rest m r' hrec
        simp only [List.length_cons]
        omega

/-- A successful LEB128 read consumes at least one byte. -/
theorem decodeUleb_len : ∀ buf n r, decodeUleb buf = .ok (n, r) →
    r.length < buf.length := by
  intro buf
  induction buf with
  | nil => intro n r h; simp [decodeUleb] at h
  | cons b rest ih =>
    intro n r h
    simp only [decodeUleb] at h
    by_cases hb : b < 128
    · simp only [hb, if_true, Except.ok.injEq, Prod.mk.injEq] at h
      obtain ⟨-, h2⟩ := h
      subst h2
      simp
    · simp only [hb, if_false] at h
      cases hrec : decodeUleb rest with
      | error e => rw [hrec] at h; cases h
      | ok p =>
        obtain ⟨m, r'⟩ := p
        rw [hrec] at h
        simp only [Except.ok.injEq, Prod.mk.injEq] at h
        obtain ⟨-, h2⟩ := h
        subst h2
        have := ih m r' hrec
        simp only [List.length_cons]
        omega

/-- A successful raw read consumes exactly `n` bytes. -/
theorem readN_len (n : Nat) (buf bs r : List Nat) (h : readN n buf = .ok (bs, r)) :
    r.length + n = buf.length := by
  simp only [readN] at h
  by_cases hle : n ≤ buf.length
  · simp only [hle, if_true, Except.ok.injEq, Prod.mk.injEq] at h
    obtain ⟨-, h2⟩ := h
    subst h2
    simp [List.length_drop]
    omega
  · simp [hle] at h

/-- A successful bounded-list decode consumes no bytes beyond its input. -/
theorem decodeList_le (t : CType)
    (hlt : ∀ buf v r, decodeValue t buf = .ok (v, r) → r.length < buf.length) :
    ∀ k buf vs r, decodeList (decodeValue t) k buf = .ok (vs, r) →
      r.length ≤ buf.length := by
  intro k
  induction k with
  | zero =>
    intro buf vs r h
    simp only [decodeList, Except.ok.injEq, Prod.mk.injEq] at h
    obtain ⟨-, h2⟩ := h
    subst h2
    exact le_refl _
  | succ k ih =>
    intro buf vs r h
    simp only [decodeList] at h
    cases hv : decodeValue t buf with
    | error e => rw [hv] at h; cases h
    | ok p =>
      obtain ⟨v, r1⟩ := p
      rw [hv] at h
      simp only [Except.ok.injEq] at h
      cases hl : decodeList (decodeValue t) k r1 with
      | error e => rw [hl] at h; cases h
      | ok q =>
        obtain ⟨ws, r2⟩ := q
        rw [hl] at h
        simp only [Except.ok.injEq, Prod.mk.injEq] at h
        obtain ⟨-, h2⟩ := h
        subst h2
        have hv' := hlt buf v r1 hv
        have hl' := ih r1 ws r2 hl
        omega

/-- A successful value decode consumes at least one byte. -/
theorem decodeValue_len (t : CType) : ∀ buf v r, decodeValue t buf = .ok (v, r) →
    r.length < buf.length := by
  induction t with
  | uintT w =>
    intro buf v r h
    simp only [decodeValue] at h
    cases hd : decLE w.bytes buf with
    | error e => rw [hd] at h; cases h
    | ok p =>
      obtain ⟨n, r'⟩ := p
      rw [hd] at h
      simp only [Except.ok.injEq, Prod.mk.injEq] at h
      obtain ⟨-, h2⟩ := h
      subst h2
      have := decLE_len w.bytes buf n r' hd
      have := IntWidth.bytes_pos w
      omega
  | intT w =>
    intro buf v r h
    simp only [decodeValue] at h
    cases hd : decLE w.bytes buf with
    | error e => rw [hd] at h; cases h
    | ok p =>
      obtain ⟨n, r'⟩ := p
      rw [hd] at h
      simp only [Except.ok.injEq, Prod.mk.injEq] at h
      obtain ⟨-, h2⟩ := h
      subst h2
      have := decLE_len w.bytes buf n r' hd
      have := IntWidth.bytes_pos w
      omega
  | float32T =>
    intro buf v r h
    simp only [decodeValue] at h
    cases hd : decLE 4 buf with
    | error e => rw [hd] at h; cases h
    | ok p =>
      obtain ⟨n, r'⟩ := p
      rw [hd] at h
      simp only [Except.ok.injEq, Prod.mk.injEq] at h
      obtain ⟨-, h2⟩ := h
      subst h2
      have := decLE_len 4 buf n r' hd
      omega
  | float64T =>
    intro buf v r h
    simp only [decodeValue] at h
    cases hd : decLE 8 buf with
    | error e => rw [hd] at h; cases h
    | ok p =>
      obtain ⟨n, r'⟩ := p
      rw [hd] at h
      simp only [Except.ok.injEq, Prod.mk.injEq] at h
      obtain ⟨-, h2⟩ := h
      subst h2
      have := decLE_len 8 buf n r' hd
      omega
  | boolT =>
    intro buf v r h
    cases buf with
    | nil => simp [decodeValue] at h
    | cons b rest =>
      match b with
      | 0 =>
        simp only [decodeValue, Except.ok.injEq, Prod.mk.injEq] at h
        obtain ⟨-, h2⟩ := h
        subst h2
        simp
      | 1 =>
        simp only [decodeValue, Except.ok.injEq, Prod.mk.injEq] at h
        obtain ⟨-, h2⟩ := h
        subst h2
        simp
      | b + 2 => simp [decodeValue] at h
  | stringT =>
    intro buf v r h
    simp only [decodeValue] at h
    cases hu : decodeUleb buf with
    | error e => rw [hu] at h; cases h
    | ok p =>
      obtain ⟨len, r1⟩ := p
      rw [hu] at h
      simp only [Except.ok.injEq] at h
      cases hr : readN len r1 with
      | error e => rw [hr] at h; cases h
      | ok q =>
        obtain ⟨bs, r2⟩ := q
        rw [hr] at h
        simp only [Except.ok.injEq, Prod.mk.injEq] at h
        obtain ⟨-, h2⟩ := h
        subst h2
        have h1 := decodeUleb_len buf len r1 hu
        have h2 := readN_len len r1 bs r2 hr
        omega
  | fixedStringT m =>
    intro buf v r h
    simp only [decodeValue] at h
    cases hr : readN (m + 1) buf with
    | error e => rw [hr] at h; cases h
    | ok q =>
      obtain ⟨bs, r2⟩ := q
      rw [hr] at h
      simp only [Except.ok.injEq, Prod.mk.injEq] at h
      obtain ⟨-, h2⟩ := h
      subst h2
      have := readN_len (m + 1) buf bs r2 hr
      omega
  | nullableT t ih =>
    intro buf v r h
    cases buf with
    | nil => simp [decodeValue] at h
    | cons b rest =>
      match b with
      | 0 =>
        simp only [decodeValue] at h
        cases hv : decodeValue t rest with
        | error e => rw [hv] at h; cases h
        | ok p =>
          obtain ⟨v', r'⟩ := p
          rw [hv] at h
          simp only [Except.ok.injEq, Prod.mk.injEq] at h
          obtain ⟨-, h2⟩ := h
          subst h2
          have := ih rest v' r' hv
          simp only [List.length_cons]
          omega
      | 1 =>
        simp only [decodeValue, Except.ok.injEq, Prod.mk.injEq] at h
        obtain ⟨-, h2⟩ := h
        subst h2
        simp
      | b + 2 => simp [decodeValue] at h
  | arrayT t ih =>
    intro buf v r h
    simp only [decodeValue] at h
    cases hu : decodeUleb buf with
    | error e => rw [hu] at h; cases h
    | ok p =>
      obtain ⟨len, r1⟩ := p
      rw [hu] at h
      simp only [Except.ok.injEq] at h
      cases hl : decodeList (decodeValue t) len r1 with
      | error e => rw [hl] at h; cases h
      | ok q =>
        obtain ⟨vs, r2⟩ := q
        rw [hl] at h
        simp only [Except.ok.injEq, Prod.mk.injEq] at h
        obtain ⟨-, h2⟩ := h
        subst h2
        have h1 := decodeUleb_len buf len r1 hu
        have h2 := decodeList_le t ih len r1 vs r2 hl
        omega

/-- A successful row decode never grows the tail. -/
theorem decodeRow_le (ty : List CType) : ∀ buf vs r, decodeRow ty buf = .ok (vs, r) →
    r.length ≤ buf.length := by
  induction ty with
  | nil =>
    intro buf vs r h
    simp only [decodeRow, Except.ok.injEq, Prod.mk.injEq] at h
    obtain ⟨-, h2⟩ := h
    subst h2
    exact le_refl _
  | cons t ts ih =>
    intro buf vs r h
    simp only [decodeRow] at h
    cases hv : decodeValue t buf with
    | error e => rw [hv] at h; cases h
    | ok p =>
      obtain ⟨v, r1⟩ := p
      rw [hv] at h
      simp only [Except.ok.injEq] at h
      cases hl : decodeRow ts r1 with
      | error e => rw [hl] at h; cases h
      | ok q =>
        obtain ⟨ws, r2⟩ := q
        rw [hl] at h
        simp only [Except.ok.injEq, Prod.mk.injEq] at h
        obtain ⟨-, h2⟩ := h
        subst h2
        have := decodeValue_len t buf v r1 hv
        have := ih r1 ws r2 hl
        omega

/-- A successful decode of a row with at least one column consumes at least
one byte. -/
theorem decodeRow_len (t : CType) (ts : List CType) : ∀ buf vs r,
    decodeRow (t :: ts) buf = .ok (vs, r) → r.length < buf.length := by
  intro buf vs r h
  simp only [decodeRow] at h
  cases hv : decodeValue t buf with
  | error e => rw [hv] at h; cases h
  | ok p =>
    obtain ⟨v, r1⟩ := p
    rw [hv] at h
    simp only [Except.ok.injEq] at h
    cases hl : decodeRow ts r1 with
    | error e => rw [hl] at h; cases h
    | ok q =>
      obtain ⟨ws, r2⟩ := q
      rw [hl] at h
      simp only [Except.ok.injEq, Prod.mk.injEq] at h
      obtain ⟨-, h2⟩ := h
      subst h2
      have := decodeValue_len t buf v r1 hv
      have := decodeRow_le ts r1 ws r2 hl
      omega

/-- On an empty buffer every value decode asks for more data. -/
theorem decodeValue_nil (t : CType) : decodeValue t [] = .error .insufficientData := by
  cases t with
  | uintT w =>
    have := IntWidth.bytes_pos w
    simp [decodeValue, decLE_short w.bytes [] (by simp; omega)]
  | intT w =>
    have := IntWidth.bytes_pos w
    simp [decodeValue, decLE_short w.bytes [] (by simp; omega)]
  | float32T => simp [decodeValue, decLE_short 4 [] (by simp)]
  | float64T => simp [decodeValue, decLE_short 8 [] (by simp)]
  | boolT => simp [decodeValue]
  | stringT => simp [decodeValue, decodeUleb]
  | fixedStringT m => simp [decodeValue, readN]
  | nullableT t => simp [decodeValue]
  | arrayT t => simp [decodeValue, decodeUleb]

/-- On an empty buffer a row with at least one column asks for more data. -/
theorem decodeRow_nil (t : CType) (ts : List CType) :
    decodeRow (t :: ts) [] = .error .insufficientData := by
  simp [decodeRow, decodeValue_nil t]

/-- Modelled from the spec: the fatal errors a Cursor can surface — a
truncated-stream error at end-of-stream with undecodable trailing bytes, or
a malformed-data error (spec sections 4.4, 7).  There is deliberately no
insufficiency constructor: the internal `insufficientData` signal is never
surfaced.  The source module `cursor` is missing from `src/`. -/
inductive CursorErr
  | truncatedStream
  | malformedData
deriving Repr, DecidableEq

/-- Modelled from the spec: the terminal outcomes of a Cursor —
`EndOfStream` or `Failed` (spec section 4.4). -/
inductive CursorEnd
  | endOfStream
  | failed (e : CursorErr)
deriving Repr, DecidableEq

/-- Modelled from the spec: the Cursor's decode loop once all bytes are
buffered — repeatedly decode rows; a `malformed` verdict fails; an
`insufficientData` verdict on an empty buffer is `EndOfStream`, and on
undecodable trailing bytes is a truncated-stream failure (spec section 4.4).
The fuel argument only bounds recursion; any fuel exceeding the buffer
length is enough (`drain_fuel_irrel`).  The source module `cursor` is
missing from `src/`. -/
def drain : Nat → List CType → List Nat → List (List CValue) × CursorEnd
  | 0, _, _ => ([], .failed .truncatedStream)
  | fuel + 1, ty, buf =>
    match decodeRow ty buf with
    | .ok (r, rest) =>
      let out := drain fuel ty rest
      (r :: out.1, out.2)
    | .error .malformed => ([], .failed .malformedData)
    | .error .insufficientData =>
      if buf.isEmpty then ([], .endOfStream) else ([], .failed .truncatedStream)

/-- Modelled from the spec: the Cursor state machine driving decode over
transport chunks — decode rows from the buffered bytes; when decoding needs
more bytes, pull the next pending chunk into the buffer; at end-of-stream
finish with `EndOfStream` on an empty buffer and a truncated-stream failure
otherwise (spec section 4.4).  The source module `cursor` is missing from
`src/`. -/
def feedChunks : Nat → List CType → List Nat → List (List Nat) →
    List (List CValue) × CursorEnd
  | 0, _, _, _ => ([], .failed .truncatedStream)
  | fuel + 1, ty, buf, pending =>
    match decodeRow ty buf with
    | .ok (r, rest) =>
      let out := feedChunks fuel ty rest pending
      (r :: out.1, out.2)
    | .error .malformed => ([], .failed .malformedData)
    | .error .insufficientData =>
      match pending with
      | [] => if buf.isEmpty then ([], .endOfStream) else ([], .failed .truncatedStream)
      | c :: cs => feedChunks fuel ty (buf ++ c) cs

/-- Total byte count of a chunk list. -/
def totalLen (chunks : List (List Nat)) : Nat :=
  (chunks.map List.length).sum

/-- Modelled from the spec: run a Cursor over the given transport chunks
with an empty initial buffer, with enough fuel for the whole stream. -/
def runCursor (ty : List CType) (chunks : List (List Nat)) :
    List (List CValue) × CursorEnd :=
  feedChunks (totalLen chunks + chunks.length + 1) ty [] chunks

/-- A nonempty row type admits a head column. -/
theorem exists_cons_of_ne_nil {ty : List CType} (hty : ty ≠ []) :
    ∃ t ts, ty = t :: ts := by
  cases ty with
  | nil => exact absurd rfl hty
  | cons t ts => exact ⟨t, ts, rfl⟩

/-- `drain` ignores its fuel once the fuel exceeds the buffer length. -/
theorem drain_fuel_irrel (ty : List CType) (hty : ty ≠ []) :
    ∀ f1 f2 buf, buf.length < f1 → buf.length < f2 → drain f1 ty buf = drain f2 ty buf := by
  intro f1
  induction f1 with
  | zero => intro f2 buf h1 h2; omega
  | succ f1 ih =>
    intro f2 buf h1 h2
    cases f2 with
    | zero => omega
    | succ g =>
      obtain ⟨t, ts, rfl⟩ := exists_cons_of_ne_nil hty
      cases hd : decodeRow (t :: ts) buf with
      | ok p =>
        obtain ⟨r, rest⟩ := p
        have hlen := decodeRow_len t ts buf r rest hd
        simp only [drain, hd]
        rw [ih g rest (by omega) (by omega)]
      | error e => cases e <;> simp only [drain, hd]

/-- Feeding chunks one at a time equals draining the concatenated bytes:
the Cursor's output depends only on the concatenation of the chunk
contents, not on where the chunk boundaries fall. -/
theorem feedChunks_eq_drain (ty : List CType) (hty : ty ≠ []) :
    ∀ fuel buf pending f2,
      buf.length + totalLen pending + pending.length < fuel →
      buf.length + totalLen pending < f2 →
      feedChunks fuel ty buf pending = drain f2 ty (buf ++ pending.flatten) := by
  intro fuel
  induction fuel with
  | zero => intro buf pending f2 h1 h2; omega
  | succ fuel ih =>
    intro buf pending f2 h1 h2
    obtain ⟨t, ts, hts⟩ := exists_cons_of_ne_nil hty
    cases f2 with
    | zero => omega
    | succ g =>
      cases hd : decodeRow ty buf with
      | ok p =>
        obtain ⟨r, rest⟩ := p
        have hlen : rest.length < buf.length := by
          subst hts
          exact decodeRow_len t ts buf r rest hd
        have hd2 := (decodeRow_ext ty buf pending.flatten).1 r rest hd
        simp only [feedChunks, drain, hd, hd2]
        rw [ih rest pending g (by omega) (by omega)]
      | error e =>
        cases e with
        | malformed =>
          have hd2 := (decodeRow_ext ty buf pending.flatten).2 hd
          simp only [feedChunks, drain, hd, hd2]
        | insufficientData =>
          cases pending with
          | nil =>
            simp only [feedChunks, drain, hd, List.flatten_nil, List.append_nil]
          | cons c cs =>
            have hTL : totalLen (c :: cs) = c.length + totalLen cs := by
              simp [totalLen]
            have hsplit : buf ++ (c :: cs).flatten = (buf ++ c) ++ cs.flatten := by
              simp [List.flatten_cons]
            rw [hTL] at h1 h2
            simp only [List.length_cons] at h1
            simp only [feedChunks, hd, hsplit]
            exact ih (buf ++ c) cs (g + 1)
              (by simp only [List.length_append]; omega)
              (by simp only [List.length_append]; omega)

/-- C2: for any sequence of bytes — in particular any encoded rows or
compression block — and any partition of those bytes into chunks, feeding
the chunks one at a time to the Cursor yields exactly the same decoded rows
and the same terminal outcome as feeding the entire buffer as one chunk. -/
theorem c2_chunk_boundary_independence (ty : List CType) (hty : ty ≠ [])
    (chunks : List (List Nat)) :
    runCursor ty chunks = runCursor ty [chunks.flatten] := by
  have hflat : chunks.flatten.length = totalLen chunks := by
    simp [totalLen, List.length_flatten]
  have h1 := feedChunks_eq_drain ty hty (totalLen chunks + chunks.length + 1) [] chunks
    (totalLen chunks + 1) (by simp) (by simp)
  have h2 := feedChunks_eq_drain ty hty
    (totalLen [chunks.flatten] + [chunks.flatten].length + 1) [] [chunks.flatten]
    (totalLen chunks + 1)
    (by simp [totalLen])
    (by simp [totalLen, hflat])
  unfold runCursor
  rw [h1, h2]
  simp

/-- Witness for C2 at a concrete two-chunk stream of two boolean rows. -/
theorem c2_chunk_boundary_independence_witness :
    runCursor [CType.boolT] [[1], [0]] = runCursor [CType.boolT] [[[1], [0]].flatten] :=
  c2_chunk_boundary_independence [CType.boolT] (by simp) [[1], [0]]

/-- Modelled from the spec: a list of rows all matching the row type. -/
def rowsHaveType (ty : List CType) : List (List CValue) → Bool
  | [] => true
  | r :: rs => rowHasType r ty && rowsHaveType ty rs

/-- Modelled from the spec: the encoded byte stream of a sequence of rows —
the concatenation of the per-row encodings (spec section 6). -/
def encodeRows (ty : List CType) : List (List CValue) → List Nat
  | [] => []
  | r :: rs => encodeRow ty r ++ encodeRows ty rs

/-- A well-typed row over a nonempty row type never encodes to zero bytes. -/
theorem encodeRow_length_pos (t : CType) (ts : List CType) (row : List CValue)
    (h : rowHasType row (t :: ts) = true) : 1 ≤ (encodeRow (t :: ts) row).length := by
  cases row with
  | nil => simp [rowHasType] at h
  | cons v vs =>
    simp only [rowHasType, Bool.and_eq_true] at h
    simp only [encodeRow, List.length_append]
    have := encodeValue_length_pos t v h.1
    omega

/-- Draining exactly the encoding of a row sequence yields those rows and
ends with `EndOfStream`. -/
theorem drain_encodeRows (ty : List CType) (hty : ty ≠ []) :
    ∀ rows f, rowsHaveType ty rows = true → (encodeRows ty rows).length < f →
    drain f ty (encodeRows ty rows) = (rows, CursorEnd.endOfStream) := by
  intro rows
  induction rows with
  | nil =>
    intro f h hf
    obtain ⟨t, ts, rfl⟩ := exists_cons_of_ne_nil hty
    cases f with
    | zero => omega
    | succ g => simp [encodeRows, drain, decodeRow_nil]
  | cons r rs ih =>
    intro f h hf
    obtain ⟨t, ts, hts⟩ := exists_cons_of_ne_nil hty
    simp only [rowsHaveType, Bool.and_eq_true] at h
    obtain ⟨h1, h2⟩ := h
    cases f with
    | zero => omega
    | succ g =>
      have hd : decodeRow ty (encodeRow ty r ++ encodeRows ty rs) =
          .ok (r, encodeRows ty rs) := decodeRow_encodeRow ty r h1 _
      have hpos : 1 ≤ (encodeRow ty r).length := by
        subst hts
        exact encodeRow_length_pos t ts r h1
      simp only [encodeRows, drain, hd]
      have hf' : (encodeRows ty rs).length < g := by
        simp only [encodeRows, List.length_append] at hf
        omega
      rw [ih g h2 hf']

/-- Draining the encoding of a row sequence followed by a strict nonempty
prefix of one more row yields the complete rows and ends with a
truncated-stream failure. -/
theorem drain_truncated (ty : List CType) (hty : ty ≠ []) :
    ∀ rows extra k f, rowsHaveType ty rows = true → rowHasType extra ty = true →
    0 < k → k < (encodeRow ty extra).length →
    (encodeRows ty rows).length + k < f →
    drain f ty (encodeRows ty rows ++ (encodeRow ty extra).take k) =
      (rows, CursorEnd.failed CursorErr.truncatedStream) := by
  intro rows
  induction rows with
  | nil =>
    intro extra k f h hextra hk1 hk2 hf
    cases f with
    | zero => omega
    | succ g =>
      have hd := decodeRow_take ty extra hextra k hk2
      have hlen : ((encodeRow ty extra).take k).length = k := by
        simp only [List.length_take]
        omega
      have hne : ((encodeRow ty extra).take k).isEmpty = false := by
        cases hcc : (encodeRow ty extra).take k with
        | nil => rw [hcc] at hlen; simp at hlen; omega
        | cons a l => simp
      simp only [encodeRows, List.nil_append, drain, hd, hne]
      simp
  | cons r rs ih =>
    intro extra k f h hextra hk1 hk2 hf
    simp only [rowsHaveType, Bool.and_eq_true] at h
    obtain ⟨h1, h2⟩ := h
    cases f with
    | zero => omega
    | succ g =>
      have hd : decodeRow ty
          (encodeRow ty r ++ (encodeRows ty rs ++ (encodeRow ty extra).take k)) =
          .ok (r, encodeRows ty rs ++ (encodeRow ty extra).take k) :=
        decodeRow_encodeRow ty r h1 _
      obtain ⟨t, ts, hts⟩ := exists_cons_of_ne_nil hty
      have hpos : 1 ≤ (encodeRow ty r).length := by
        subst hts
        exact encodeRow_length_pos t ts r h1
      simp only [encodeRows, List.append_assoc, drain, hd]
      have hf' : (encodeRows ty rs).length + k < g := by
        simp only [encodeRows, List.length_append] at hf
        omega
      rw [ih extra k g h2 hextra hk1 hk2 hf']

/-- C7: when the transport reports end-of-stream, a Cursor holding exactly a
whole number of encoded rows ends in the terminal `EndOfStream` state having
yielded every row, while a Cursor holding a stream truncated mid-row ends in
the terminal `Failed` state with a truncated-stream error, still yielding
exactly the complete rows — never a silently short row sequence. -/
theorem c7_end_of_stream_and_truncation (ty : List CType) (hty : ty ≠ []) :
    (∀ rows, rowsHaveType ty rows = true →
      runCursor ty [encodeRows ty rows] = (rows, CursorEnd.endOfStream)) ∧
    (∀ rows extra k, rowsHaveType ty rows = true → rowHasType extra ty = true →
      0 < k → k < (encodeRow ty extra).length →
      runCursor ty [encodeRows ty rows ++ (encodeRow ty extra).take k] =
        (rows, CursorEnd.failed CursorErr.truncatedStream)) := by
  constructor
  · intro rows h
    have heq := feedChunks_eq_drain ty hty
      (totalLen [encodeRows ty rows] + [encodeRows ty rows].length + 1) [] [encodeRows ty rows]
      ((encodeRows ty rows).length + 1)
      (by simp [totalLen])
      (by simp [totalLen])
    unfold runCursor
    rw [heq]
    simp only [List.nil_append, List.flatten_cons, List.flatten_nil, List.append_nil]
    exact drain_encodeRows ty hty rows _ h (by omega)
  · intro rows extra k h hextra hk1 hk2
    have heq := feedChunks_eq_drain ty hty
      (totalLen [encodeRows ty rows ++ (encodeRow ty extra).take k] +
        [encodeRows ty rows ++ (encodeRow ty extra).take k].length + 1) []
      [encodeRows ty rows ++ (encodeRow ty extra).take k]
      ((encodeRows ty rows ++ (encodeRow ty extra).take k).length + 1)
      (by simp [totalLen])
      (by simp [totalLen])
    unfold runCursor
    rw [heq]
    simp only [List.nil_append, List.flatten_cons, List.flatten_nil, List.append_nil]
    apply drain_truncated ty hty rows extra k _ h hextra hk1 hk2
    simp only [List.length_append, List.length_take]
    omega

/-- Witness for C7: one 16-bit row followed (in the truncated case) by a
single byte of a second row. -/
theorem c7_end_of_stream_and_truncation_witness :
    runCursor [CType.uintT .w16] [encodeRows [CType.uintT .w16] [[.uintV 5]]] =
      ([[.uintV 5]], CursorEnd.endOfStream) ∧
    runCursor [CType.uintT .w16]
        [encodeRows [CType.uintT .w16] [[.uintV 5]] ++
          (encodeRow [CType.uintT .w16] [.uintV 7]).take 1] =
      ([[.uintV 5]], CursorEnd.failed CursorErr.truncatedStream) :=
  ⟨(c7_end_of_stream_and_truncation [CType.uintT .w16] (by simp)).1 [[.uintV 5]] (by decide),
   (c7_end_of_stream_and_truncation [CType.uintT .w16] (by simp)).2 [[.uintV 5]] [.uintV 7] 1
     (by decide) (by decide) (by decide) (by decide)⟩

/-- Modelled from the spec: Buffer Chain state — an ordered list of
not-yet-fully-consumed chunks plus a byte offset into the oldest chunk
marking the read position (spec section 3).  The source module `buflist` is
missing from `src/`. -/
structure BufList where
  chunks : List (List Nat)
  offset : Nat
deriving Repr, DecidableEq

/-- The Buffer Chain of a fresh Cursor: no chunks, offset zero. -/
def BufList.empty : BufList := ⟨[], 0⟩

/-- The logical byte sequence still unread: the chunk contents in order,
past the read offset. -/
def BufList.flat (b : BufList) : List Nat := b.chunks.flatten.drop b.offset

/-- Modelled from the spec: `append(chunk)` — adds ownership of a new chunk
at the tail (spec section 4.2). -/
def BufList.append (b : BufList) (c : List Nat) : BufList := ⟨b.chunks ++ [c], b.offset⟩

/-- Modelled from the spec: `try_consume(n)` — returns a contiguous logical
view of the next `n` bytes if available (bridging physical chunks), or
signals insufficiency; in either case nothing is consumed, so the state is
returned untouched (spec section 4.2). -/
def BufList.tryConsume (b : BufList) (n : Nat) : Option (List Nat) × BufList :=
  if n ≤ b.flat.length then (some (b.flat.take n), b) else (none, b)

/-- Drop chunks that the offset has fully passed, keeping the residual
offset inside the new oldest chunk. -/
def advanceChunks : List (List Nat) → Nat → List (List Nat) × Nat
  | [], _ => ([], 0)
  | c :: cs, off => if c.length ≤ off then advanceChunks cs (off - c.length) else (c :: cs, off)

/-- Modelled from the spec: `commit(n)` — advances the read offset by `n`
bytes, releasing any chunks fully behind the new offset (spec section 4.2). -/
def BufList.commit (b : BufList) (n : Nat) : BufList :=
  ⟨(advanceChunks b.chunks (b.offset + n)).1, (advanceChunks b.chunks (b.offset + n)).2⟩

/-- The three Buffer Chain operations of spec section 4.2. -/
inductive BufOp
  | append (c : List Nat)
  | tryConsume (n : Nat)
  | commit (n : Nat)

/-- One Buffer Chain operation applied to the state. -/
def BufList.step (b : BufList) : BufOp → BufList
  | .append c => b.append c
  | .tryConsume n => (b.tryConsume n).2
  | .commit n => b.commit n

/-- A whole operation sequence run from the fresh state. -/
def BufList.run (ops : List BufOp) : BufList :=
  ops.foldl BufList.step BufList.empty

/-- Length of the oldest chunk (zero when no chunk is held). -/
def headLen : List (List Nat) → Nat
  | [] => 0
  | c :: _ => c.length

/-- After advancing, the residual offset lies inside the new oldest chunk. -/
theorem advanceChunks_headLen : ∀ cs off,
    (advanceChunks cs off).2 ≤ headLen (advanceChunks cs off).1 := by
  intro cs
  induction cs with
  | nil => intro off; simp [advanceChunks, headLen]
  | cons c cs ih =>
    intro off
    by_cases hc : c.length ≤ off
    · simp only [advanceChunks, hc, if_true]
      exact ih (off - c.length)
    · simp only [advanceChunks, hc, if_false, headLen]
      omega

/-- Advancing releases exactly a front segment of chunks whose total length
the offset has passed. -/
theorem advanceChunks_dropped : ∀ cs off, ∃ dropped,
    cs = dropped ++ (advanceChunks cs off).1 ∧ totalLen dropped ≤ off := by
  intro cs
  induction cs with
  | nil => intro off; exact ⟨[], by simp [advanceChunks], by simp [totalLen]⟩
  | cons c cs ih =>
    intro off
    by_cases hc : c.length ≤ off
    · obtain ⟨d, hd1, hd2⟩ := ih (off - c.length)
      refine ⟨c :: d, ?_, ?_⟩
      · simp only [advanceChunks, hc, if_true, List.cons_append]
        rw [← hd1]
      · simp only [totalLen, List.map_cons, List.sum_cons] at hd2 ⊢
        omega
    · exact ⟨[], by simp [advanceChunks, hc], by simp [totalLen]⟩

/-- Appending to a nonempty chunk list keeps the oldest chunk. -/
theorem headLen_append (cs : List (List Nat)) (c : List Nat) (h : cs ≠ []) :
    headLen (cs ++ [c]) = headLen cs := by
  cases cs with
  | nil => exact absurd rfl h
  | cons a l => simp [headLen]

/-- Every single Buffer Chain operation preserves the offset invariant. -/
theorem BufList.step_wf (b : BufList) (hwf : b.offset ≤ headLen b.chunks) (op : BufOp) :
    (b.step op).offset ≤ headLen (b.step op).chunks := by
  cases op with
  | append c =>
    cases hc : b.chunks with
    | nil =>
      simp only [BufList.step, BufList.append, hc]
      rw [hc] at hwf
      simp only [headLen] at hwf
      simp [headLen]
      omega
    | cons a l =>
      simp only [BufList.step, BufList.append]
      rw [hc, headLen_append (a :: l) c (by simp)]
      rw [hc] at hwf
      exact hwf
  | tryConsume n =>
    simp only [BufList.step, BufList.tryConsume]
    split <;> exact hwf
  | commit n =>
    simp only [BufList.step, BufList.commit]
    exact advanceChunks_headLen b.chunks (b.offset + n)

/-- The offset invariant holds along any operation sequence. -/
theorem BufList.foldl_wf : ∀ (ops : List BufOp) (b : BufList),
    b.offset ≤ headLen b.chunks →
    (ops.foldl BufList.step b).offset ≤ headLen (ops.foldl BufList.step b).chunks := by
  intro ops
  induction ops with
  | nil => intro b hwf; exact hwf
  | cons op ops ih =>
    intro b hwf
    exact ih (b.step op) (BufList.step_wf b hwf op)

/-- C8: along every sequence of Buffer Chain operations from the fresh
state, the read offset never exceeds the length of the oldest retained
chunk; `commit` releases exactly a front segment of chunks whose total
length the new offset has passed (so a chunk is released only after the
offset passes its end); and a `try_consume` that signals insufficiency
leaves the Buffer Chain state entirely unchanged. -/
theorem c8_buffer_chain_invariants :
    (∀ ops : List BufOp,
      (BufList.run ops).offset ≤ headLen (BufList.run ops).chunks) ∧
    (∀ (b : BufList) (n : Nat), ∃ dropped,
      b.chunks = dropped ++ (b.commit n).chunks ∧ totalLen dropped ≤ b.offset + n) ∧
    (∀ (b : BufList) (n : Nat), (b.tryConsume n).1 = none → (b.tryConsume n).2 = b) := by
  refine ⟨?_, ?_, ?_⟩
  · intro ops
    exact BufList.foldl_wf ops BufList.empty (by simp [BufList.empty, headLen])
  · intro b n
    exact advanceChunks_dropped b.chunks (b.offset + n)
  · intro b n h
    simp only [BufList.tryConsume]
    split <;> rfl

/-- Witness for C8 at a concrete state: a `try_consume` past the available
bytes signals insufficiency and leaves the state unchanged. -/
theorem c8_buffer_chain_invariants_witness :
    ((⟨[[1, 2]], 0⟩ : BufList).tryConsume 5).2 = (⟨[[1, 2]], 0⟩ : BufList) :=
  c8_buffer_chain_invariants.2.2 ⟨[[1, 2]], 0⟩ 5 (by decide)

/-- Modelled from the spec: the 4-byte checksum of a Compression Block over
its payload (spec section 6).  The concrete checksum function of the
missing `compression` module is not specified beyond being a 4-byte
data-integrity checksum; it is modelled as the byte sum modulo 2^32, which
distinguishes any two payloads differing in a single byte. -/
def checksum (bs : List Nat) : Nat := bs.sum % 4294967296

/-- Modelled from the spec: the method tag byte for the "none" compression
method (spec section 6). -/
def methodNone : Nat := 0

/-- Modelled from the spec: one framed Compression Block with method
"none" — tag byte, 4-byte checksum, 4-byte compressed length, 4-byte
uncompressed length, then the payload (spec section 6; with method "none"
both lengths equal the payload length). 
The source module `compression` is missing from `src/`. -/
def encodeBlock (payload : List Nat) : List Nat :=
  methodNone ::
    (encLE 4 (checksum payload) ++ encLE 4 payload.length ++ encLE 4 payload.length ++ payload)

/-- Modelled from the spec: the fatal framing errors of the read path —
`ChecksumMismatch` and `UnsupportedCompressionMethod` are fatal,
non-retryable decode errors; an incomplete block must simply wait for more
input (spec sections 4.3, 7). -/
inductive FramerErr
  | checksumMismatch
  | unsupportedMethod
  | incompleteBlock
deriving Repr, DecidableEq

/-- Modelled from the spec: parse one Compression Block from the front of
the stream — read the tag, checksum, sizes and declared payload bytes,
verify the checksum, and fail with `checksumMismatch` on disagreement; an
unknown method tag is `unsupportedMethod` (spec sections 4.3, 6, 7). -/
def decodeBlock (input : List Nat) : Except FramerErr (List Nat × List Nat) :=
  match input with
  | [] => .error .incompleteBlock
  | tag :: r0 =>
    if tag = methodNone then
      match decLE 4 r0 with
      | .ok (ck, r1) =>
        match decLE 4 r1 with
        | .ok (clen, r2) =>
          match decLE 4 r2 with
          | .ok (_, r3) =>
            match readN clen r3 with
            | .ok (payload, r4) =>
              if checksum payload = ck then .ok (payload, r4)
              else .error .checksumMismatch
            | .error _ => .error .incompleteBlock
          | .error _ => .error .incompleteBlock
        | .error _ => .error .incompleteBlock
      | .error _ => .error .incompleteBlock
    else .error .unsupportedMethod

/-- Modelled from the spec: the read path over one compressed block —
unwrap and verify the block, then drain rows from its payload; a framing
error is fatal and yields no rows (spec section 4.3). -/
def readBlockRows (ty : List CType) (input : List Nat) :
    Except FramerErr (List (List CValue) × CursorEnd) :=
  match decodeBlock input with
  | .ok (payload, _) => .ok (drain (payload.length + 1) ty payload)
  | .error e => .error e

/-- Replacing one element shifts the list sum by the difference. -/
theorem sum_set (l : List Nat) : ∀ (i : Nat) (h : i < l.length) (b : Nat),
    (l.set i b).sum + l.get ⟨i, h⟩ = l.sum + b := by
  induction l with
  | nil => intro i h b; simp at h
  | cons a l ih =>
    intro i h b
    cases i with
    | zero => simp [List.set]; omega
    | succ j =>
      simp only [List.length_cons] at h
      have := ih j (by omega) b
      simp only [List.set, List.sum_cons, List.get_cons_succ]
      omega

/-- Setting an index past a front segment edits only the back segment. -/
theorem set_append_right (a : List Nat) : ∀ (b : List Nat) (i : Nat) (x : Nat),
    (a ++ b).set (a.length + i) x = a ++ b.set i x := by
  induction a with
  | nil => intro b i x; simp
  | cons hd tl ih =>
    intro b i x
    have hidx : (hd :: tl).length + i = (tl.length + i) + 1 := by simp; omega
    rw [hidx]
    simp only [List.cons_append, List.set_cons_succ]
    rw [ih b i x]

/-- C6: corrupting any single byte of a compressed block's payload makes the
block decoder fail with `checksumMismatch`, and the whole read path over the
block fails with the same fatal error without yielding any row. -/
theorem c6_checksum_enforcement (payload : List Nat) (i : Nat) (b' : Nat) (ty : List CType)
    (hi : i < payload.length) (hlen : payload.length < 4294967296)
    (hpi : payload.get ⟨i, hi⟩ < 256) (hb : b' < 256)
    (hne : b' ≠ payload.get ⟨i, hi⟩) :
    decodeBlock ((encodeBlock payload).set (13 + i) b') =
      .error FramerErr.checksumMismatch ∧
    readBlockRows ty ((encodeBlock payload).set (13 + i) b') =
      .error FramerErr.checksumMismatch := by
  have hck : checksum payload < 256 ^ 4 := by
    have : (256 : Nat) ^ 4 = 4294967296 := by norm_num
    rw [this]
    exact Nat.mod_lt _ (by norm_num)
  have hpl : payload.length < 256 ^ 4 := by
    have : (256 : Nat) ^ 4 = 4294967296 := by norm_num
    omega
  have hdr : (encodeBlock payload).set (13 + i) b' =
      methodNone :: (encLE 4 (checksum payload) ++ encLE 4 payload.length ++
        encLE 4 payload.length ++ (payload.set i b')) := by
    unfold encodeBlock
    have h13 : 13 + i = (12 + i) + 1 := by omega
    rw [h13, List.set_cons_succ]
    have hlen12 : 12 + i =
        (encLE 4 (checksum payload) ++ encLE 4 payload.length ++
          encLE 4 payload.length).length + i := by
      simp [List.length_append, encLE_length]
    rw [hlen12, set_append_right]
  have hsum := sum_set payload i hi b'
  have hckne : ¬ (checksum (payload.set i b') = checksum payload) := by
    simp only [checksum]
    omega
  have hset_len : (payload.set i b').length = payload.length := List.length_set payload i b'
  have hread : readN payload.length (payload.set i b') = .ok (payload.set i b', []) := by
    simp only [readN, hset_len, le_refl, if_true]
    rw [← hset_len]
    simp [List.take_length, List.drop_length]
  have hblock : decodeBlock ((encodeBlock payload).set (13 + i) b') =
      .error FramerErr.checksumMismatch := by
    rw [hdr]
    have e1 := decLE_encLE 4 (checksum payload)
      (encLE 4 payload.length ++ (encLE 4 payload.length ++ payload.set i b')) hck
    have e2 := decLE_encLE 4 payload.length
      (encLE 4 payload.length ++ payload.set i b') hpl
    have e3 := decLE_encLE 4 payload.length (payload.set i b') hpl
    simp [decodeBlock, List.append_assoc, e1, e2, e3, hread, hckne]
  refine ⟨hblock, ?_⟩
  rw [readBlockRows, hblock]

/-- Witness for C6: flipping the single payload byte of a one-byte block. -/
theorem c6_checksum_enforcement_witness :
    decodeBlock ((encodeBlock [7]).set 13 8) = .error FramerErr.checksumMismatch ∧
    readBlockRows [CType.boolT] ((encodeBlock [7]).set 13 8) =
      .error FramerErr.checksumMismatch :=
  c6_checksum_enforcement [7] 0 8 [CType.boolT] (by decide) (by decide) (by decide)
    (by decide) (by decide)

/-- Modelled from the spec: the Inserter's optional thresholds — max rows
per batch, max serialized bytes per batch, max time since last commit; any
subset may be enabled (spec section 4.5).  The source module `inserter` is
missing from `src/`. -/
structure InserterCfg where
  maxRows : Option Nat
  maxBytes : Option Nat
  maxElapsed : Option Nat
deriving Repr, DecidableEq

/-- Modelled from the spec: Batch State — accumulated row count, accumulated
serialized byte count, and the time elapsed since the last successful commit
(spec sections 2 and 3). -/
structure BatchState where
  rows : Nat
  bytes : Nat
  elapsed : Nat
deriving Repr, DecidableEq

/-- Modelled from the spec: the Inserter — configuration, current Batch
State, and the log of `(rows, bytes)` statistics of completed commits. -/
structure Inserter where
  cfg : InserterCfg
  state : BatchState
  committed : List (Nat × Nat)
deriving Repr, DecidableEq

/-- A fresh Inserter with empty Batch State. -/
def inserterInit (cfg : InserterCfg) : Inserter := ⟨cfg, ⟨0, 0, 0⟩, []⟩

/-- Modelled from the spec: threshold check — a threshold triggers when
enabled and reached; disabled thresholds never trigger (spec section 4.5). -/
def thresholdHit (cfg : InserterCfg) (s : BatchState) : Bool :=
  (match cfg.maxRows with
   | Option.some m => decide (m ≤ s.rows)
   | Option.none => false) ||
  (match cfg.maxBytes with
   | Option.some m => decide (m ≤ s.bytes)
   | Option.none => false) ||
  (match cfg.maxElapsed with
   | Option.some m => decide (m ≤ s.elapsed)
   | Option.none => false)

/-- Modelled from the spec: finalize the current Insert transaction.  The
`ok` flag is the server's verdict on the transaction.  On success the Batch
State is reset to zero and the committed statistics are logged and returned;
on failure the Inserter is returned completely unchanged so the caller can
inspect what was lost (spec sections 3 and 7). -/
def Inserter.commit (ins : Inserter) (ok : Bool) : Inserter × Option (Nat × Nat) :=
  if ok then
    ({ ins with
        state := ⟨0, 0, 0⟩,
        committed := ins.committed ++ [(ins.state.rows, ins.state.bytes)] },
      Option.some (ins.state.rows, ins.state.bytes))
  else (ins, Option.none)

/-- Modelled from the spec: append one serialized row of `rowBytes` bytes —
update the Batch State, check thresholds, and on a triggered threshold
finalize the current Insert transaction, returning the statistics of the
completed transaction to the caller (spec section 4.5). -/
def Inserter.append (ins : Inserter) (rowBytes : Nat) (ok : Bool) :
    Inserter × Option (Nat × Nat) :=
  let s : BatchState :=
    ⟨ins.state.rows + 1, ins.state.bytes + rowBytes, ins.state.elapsed⟩
  let ins' : Inserter := { ins with state := s }
  if thresholdHit ins.cfg s then ins'.commit ok else (ins', Option.none)

/-- Append a sequence of rows, collecting the per-append commit outcome. -/
def appendMany : Inserter → List Nat → Inserter × List (Option (Nat × Nat))
  | ins, [] => (ins, [])
  | ins, sz :: rest =>
    let p := ins.append sz true
    let q := appendMany p.1 rest
    (q.1, p.2 :: q.2)

/-- C3: with max-rows = 3 and no other thresholds, appending five rows
(of any byte sizes) triggers exactly one auto-commit, returned with the
third append and committing the first three rows; the two remaining rows
stay pending; a subsequent forced flush commits exactly those two rows and
empties the Batch State. -/
theorem c3_inserter_threshold (b1 b2 b3 b4 b5 : Nat) :
    (appendMany (inserterInit ⟨Option.some 3, Option.none, Option.none⟩)
        [b1, b2, b3, b4, b5]).2 =
      [Option.none, Option.none, Option.some (3, b1 + b2 + b3),
        Option.none, Option.none] ∧
    (appendMany (inserterInit ⟨Option.some 3, Option.none, Option.none⟩)
        [b1, b2, b3, b4, b5]).1.state = ⟨2, b4 + b5, 0⟩ ∧
    (appendMany (inserterInit ⟨Option.some 3, Option.none, Option.none⟩)
        [b1, b2, b3, b4, b5]).1.committed = [(3, b1 + b2 + b3)] ∧
    ((appendMany (inserterInit ⟨Option.some 3, Option.none, Option.none⟩)
        [b1, b2, b3, b4, b5]).1.commit true).2 = Option.some (2, b4 + b5) ∧
    ((appendMany (inserterInit ⟨Option.some 3, Option.none, Option.none⟩)
        [b1, b2, b3, b4, b5]).1.commit true).1.committed =
      [(3, b1 + b2 + b3), (2, b4 + b5)] ∧
    ((appendMany (inserterInit ⟨Option.some 3, Option.none, Option.none⟩)
        [b1, b2, b3, b4, b5]).1.commit true).1.state = ⟨0, 0, 0⟩ := by
  refine ⟨?_, ?_, ?_, ?_, ?_, ?_⟩ <;>
    simp [appendMany, inserterInit, Inserter.append, Inserter.commit, thresholdHit]

/-- C4: a successful commit resets the Batch State to zero and logs the
committed statistics without touching the configuration; a failed commit
attempt returns the Inserter completely unchanged — row count, byte count
and elapsed time are all preserved for the caller to inspect — and reports
no committed statistics. -/
theorem c4_batch_state_reset_on_commit (ins : Inserter) :
    (ins.commit true).1.state = ⟨0, 0, 0⟩ ∧
    (ins.commit true).1.cfg = ins.cfg ∧
    (ins.commit true).1.committed =
      ins.committed ++ [(ins.state.rows, ins.state.bytes)] ∧
    (ins.commit true).2 = Option.some (ins.state.rows, ins.state.bytes) ∧
    (ins.commit false).1 = ins ∧
    (ins.commit false).2 = Option.none := by
  refine ⟨rfl, rfl, rfl, rfl, rfl, rfl⟩

/-- The compression setting of the `Client`.  The `compression` module is
not under `src/`; only the variants the builder code needs are modelled. -/
inductive Compression
  | none
  | lz4
deriving Repr, DecidableEq

/-- The `Client` configuration object of `src/src/lib.rs` (lines 50-63):
URL, optional database, user and password, compression setting, and the
options and headers maps.  The two hyper connection pools carry no
builder-visible state and are omitted; each `HashMap<String, String>` is
modelled as a total function from keys to `Option String`. -/
structure Client where
  url : String
  database : Option String
  user : Option String
  password : Option String
  compression : Compression
  options : String → Option String
  headers : String → Option String

/-- `HashMap::insert`: map the given key to the value, replacing any
previous entry for that key and leaving every other key unchanged. -/
def mapInsert (m : String → Option String) (k v : String) : String → Option String :=
  fun q => if q = k then Option.some v else m q

/-- `Client::with_url` (src/src/lib.rs lines 98-101). -/
def Client.with_url (c : Client) (u : String) : Client := { c with url := u }

/-- `Client::with_database` (src/src/lib.rs lines 103-106). -/
def Client.with_database (c : Client) (d : String) : Client :=
  { c with database := Option.some d }

/-- `Client::with_user` (src/src/lib.rs lines 108-111). -/
def Client.with_user (c : Client) (u : String) : Client :=
  { c with user := Option.some u }

/-- `Client::with_password` (src/src/lib.rs lines 113-116). -/
def Client.with_password (c : Client) (p : String) : Client :=
  { c with password := Option.some p }

/-- `Client::with_compression` (src/src/lib.rs lines 118-126): under the
`test-util` cargo feature the stored compression is forced to `None` (a
temporary measure until compression is implemented there); otherwise the
argument is stored. -/
def Client.with_compression (c : Client) (testUtil : Bool) (comp : Compression) : Client :=
  { c with compression := if testUtil then Compression.none else comp }

/-- `Client::with_option` (src/src/lib.rs lines 128-131). -/
def Client.with_option (c : Client) (name value : String) : Client :=
  { c with options := mapInsert c.options name value }

/-- `Client::with_header` (src/src/lib.rs lines 133-136). -/
def Client.with_header (c : Client) (name value : String) : Client :=
  { c with headers := mapInsert c.headers name value }

/-- The error surfaced by `Client::request` for a non-dispatchable scheme
(`Error::UnsupportedScheme` in the missing `error` module, carrying the
scheme as an optional string). -/
inductive ClientError
  | unsupportedScheme (scheme : Option String)
deriving Repr, DecidableEq

/-- Which hyper client a request was handed to. -/
inductive Dispatch
  | plaintext
  | tls
deriving Repr, DecidableEq

/-- `Client::request` (src/src/lib.rs lines 154-161): dispatch on the
request URI's scheme — `Some("http")` goes to the plaintext client;
`Some("https")` goes to the TLS client when the `tls` feature is compiled
in (otherwise that match arm does not exist); every other scheme, including
an absent one, falls to the catch-all and is rejected with
`Error::UnsupportedScheme(scheme)` without issuing any request. -/
def Client.request (_c : Client) (tlsFeature : Bool) (scheme : Option String) :
    Except ClientError Dispatch :=
  if scheme = Option.some "http" then .ok .plaintext
  else if tlsFeature = true ∧ scheme = Option.some "https" then .ok .tls
  else .error (.unsupportedScheme scheme)

/-- C9: `Client::request` returns Ok with a response future exactly for the
scheme "http" (or "https" when the tls feature is enabled), and returns
`Err(Error::UnsupportedScheme(scheme))` without issuing any request for
every other scheme, including an absent scheme. -/
theorem c9_request_scheme_dispatch (c : Client) (tls : Bool) (s : Option String) :
    (s = Option.some "http" → c.request tls s = .ok .plaintext) ∧
    (tls = true → s = Option.some "https" → c.request tls s = .ok .tls) ∧
    (s ≠ Option.some "http" → ¬ (tls = true ∧ s = Option.some "https") →
      c.request tls s = .error (.unsupportedScheme s)) := by
  refine ⟨?_, ?_, ?_⟩
  · intro h
    subst h
    rfl
  · intro ht hs
    subst ht
    subst hs
    rfl
  · intro h1 h2
    simp only [Client.request]
    rw [if_neg h1, if_neg h2]

/-- Witness for C9: with the tls feature disabled, a request with no scheme
is rejected with `UnsupportedScheme(None)`. -/
theorem c9_request_scheme_dispatch_witness :
    ({ url := "", database := Option.none, user := Option.none,
       password := Option.none, compression := Compression.lz4,
       options := fun _ => Option.none,
       headers := fun _ => Option.none } : Client).request false Option.none =
      .error (.unsupportedScheme Option.none) :=
  (c9_request_scheme_dispatch _ false Option.none).2.2 (by simp) (by simp)

/-- C10: every builder method stores into exactly its own target field —
`with_option` and `with_header` write exactly the given key into their map,
replacing any previous value of that key and preserving all other keys —
and leaves every other field of the `Client` unchanged.
(`with_compression` under the `test-util` feature stores `None` instead of
its argument, but still touches only the compression field.) -/
theorem c10_builder_frame_conditions (c : Client) (u d usr pw : String) (tu : Bool)
    (comp : Compression) (k v q : String) :
    (c.with_url u).url = u ∧
    ((c.with_url u).database, (c.with_url u).user, (c.with_url u).password,
      (c.with_url u).compression, (c.with_url u).options, (c.with_url u).headers) =
      (c.database, c.user, c.password, c.compression, c.options, c.headers) ∧
    (c.with_database d).database = Option.some d ∧
    ((c.with_database d).url, (c.with_database d).user, (c.with_database d).password,
      (c.with_database d).compression, (c.with_database d).options,
      (c.with_database d).headers) =
      (c.url, c.user, c.password, c.compression, c.options, c.headers) ∧
    (c.with_user usr).user = Option.some usr ∧
    ((c.with_user usr).url, (c.with_user usr).database, (c.with_user usr).password,
      (c.with_user usr).compression, (c.with_user usr).options,
      (c.with_user usr).headers) =
      (c.url, c.database, c.password, c.compression, c.options, c.headers) ∧
    (c.with_password pw).password = Option.some pw ∧
    ((c.with_password pw).url, (c.with_password pw).database, (c.with_password pw).user,
      (c.with_password pw).compression, (c.with_password pw).options,
      (c.with_password pw).headers) =
      (c.url, c.database, c.user, c.compression, c.options, c.headers) ∧
    (c.with_compression tu comp).compression =
      (if tu then Compression.none else comp) ∧
    ((c.with_compression tu comp).url, (c.with_compression tu comp).database,
      (c.with_compression tu comp).user, (c.with_compression tu comp).password,
      (c.with_compression tu comp).options, (c.with_compression tu comp).headers) =
      (c.url, c.database, c.user, c.password, c.options, c.headers) ∧
    (c.with_option k v).options q = (if q = k then Option.some v else c.options q) ∧
    ((c.with_option k v).url, (c.with_option k v).database, (c.with_option k v).user,
      (c.with_option k v).password, (c.with_option k v).compression,
      (c.with_option k v).headers) =
      (c.url, c.database, c.user, c.password, c.compression, c.headers) ∧
    (c.with_header k v).headers q = (if q = k then Option.some v else c.headers q) ∧
    ((c.with_header k v).url, (c.with_header k v).database, (c.with_header k v).user,
      (c.with_header k v).password, (c.with_header k v).compression,
      (c.with_header k v).options) =
      (c.url, c.database, c.user, c.password, c.compression, c.options) :=
  ⟨rfl, rfl, rfl, rfl, rfl, rfl, rfl, rfl, rfl, rfl, rfl, rfl, rfl, rfl⟩
